import Mathlib

/-!
Verification development for the job-listing acquisition engine of the
Radius repository: the normalization/deduplication pipeline
(`server/src/utils/jobProcessor.js`), the four scraper adapters
(`IndeedScraper`, `PlaywrightIndeedScraper`, `NaukriScraper`,
`PlaywrightNaukriScraper`) and the job runner (`executeJob`).

JavaScript strings are modelled as Lean `String` / `List Char`; a nullable
string field is `Option String` (with `none` for `null`/`undefined`, and
JavaScript string falsiness "null or empty" captured by `truthy`).
Machine-level details that no claim touches (timestamps, raw HTML capture,
console logging, inter-page delays) are omitted.
-/

namespace Radius

/-! ## JavaScript string primitives -/

/-- Character class of the JavaScript `\s` regex class and `String.prototype.trim`,
restricted to the ASCII whitespace characters that can occur in this pipeline. -/
def isWs (c : Char) : Bool :=
  c == ' ' || c == '\t' || c == '\n' || c == '\r' || c == '\x0b' || c == '\x0c'

/-- Model of JavaScript `String.prototype.trim`: drop leading and trailing whitespace. -/
def trimChars (l : List Char) : List Char :=
  ((l.dropWhile isWs).reverse.dropWhile isWs).reverse

/-- Worker for `collapseWs`; the flag records whether the previous character was
whitespace (in which case further whitespace of the same run is swallowed). -/
def collapseWsAux : Bool → List Char → List Char
  | _, [] => []
  | prevWs, c :: rest =>
    if isWs c then
      if prevWs then collapseWsAux true rest
      else ' ' :: collapseWsAux true rest
    else c :: collapseWsAux false rest

/-- Model of the JavaScript `.replace(/\s+/g, ' ')` step: every maximal run of
whitespace becomes a single space. -/
def collapseWs (l : List Char) : List Char :=
  collapseWsAux false l

/-- JavaScript string truthiness for a nullable string: `null`, `undefined`
and `""` are falsy. -/
def truthy : Option String → Bool
  | none => false
  | some s => !(s == "")

/-- Model of `normalizeString` from `jobProcessor.js`: return `null` for falsy
input, otherwise trim, collapse whitespace runs to single spaces, and map an
empty result back to `null`.  The source's second `.replace(/\n+/g, ' ')` is a
no-op because the first replace already removed every newline. -/
def normalizeString : Option String → Option String
  | none => none
  | some s =>
    if s = "" then none
    else
      let t := collapseWs (trimChars s.toList)
      if t = [] then none else some (String.mk t)

/-- Scan for the first unconsumed `')'`; `some rest` is the remainder after it,
`none` if no `')'` occurs.  Used to model the lazy regex `\(.*?\)`. -/
def splitAtClose : List Char → Option (List Char)
  | [] => none
  | c :: rest => if c = ')' then some rest else splitAtClose rest

/-- Fuel-indexed worker for `removeParens`; the fuel is an upper bound on the
input length, so the `0` case is unreachable for the wrapper's choice of fuel. -/
def removeParensF : Nat → List Char → List Char
  | 0, l => l
  | fuel + 1, l =>
    match l with
    | [] => []
    | c :: rest =>
      if c = '(' then
        match splitAtClose rest with
        | some rest2 => removeParensF fuel rest2
        | none => c :: removeParensF fuel rest
      else c :: removeParensF fuel rest

/-- Model of the JavaScript `.replace(/\(.*?\)/g, '')` step of
`normalizeCompanyName`: scanning left to right, each `'('` together with
everything up to the nearest following `')'` is deleted; a `'('` with no
later `')'` is kept.  (After `normalizeString` the text has no newlines, so
the regex `.` matches every remaining character.) -/
def removeParens (l : List Char) : List Char :=
  removeParensF l.length l

/-- Model of `normalizeCompanyName` from `jobProcessor.js`: `normalizeString`,
then parenthetical removal, a final trim, and `|| null`. -/
def normalizeCompanyName (v : Option String) : Option String :=
  match v with
  | none => none
  | some s =>
    if s = "" then none
    else
      match normalizeString (some s) with
      | none => none
      | some u =>
        let w := trimChars (removeParens u.toList)
        if w = [] then none else some (String.mk w)

/-- Strip a leading `in` token (case-insensitive) followed by at least one
whitespace character, together with that whitespace run: the JavaScript
`.replace(/^in\s+/i, '')` of `normalizeLocation`. -/
def stripLeadingIn (l : List Char) : List Char :=
  match l with
  | c1 :: c2 :: c3 :: rest =>
    if (c1 == 'i' || c1 == 'I') && (c2 == 'n' || c2 == 'N') && isWs c3 then
      List.dropWhile isWs (c3 :: rest)
    else l
  | _ => l

/-- Replace each occurrence of the three-character mojibake sequence `â€¢`
(a UTF-8 bullet read as Latin-1) by a comma: the JavaScript
`.replace(/â€¢/g, ',')` of `normalizeLocation`. -/
def replaceBullet : List Char → List Char
  | 'â' :: '€' :: '¢' :: rest => ',' :: replaceBullet rest
  | c :: rest => c :: replaceBullet rest
  | [] => []

/-- Model of `normalizeLocation` from `jobProcessor.js`.  Note the source has
no trailing `|| null` here: a non-null normalized string is returned as-is. -/
def normalizeLocation (v : Option String) : Option String :=
  match v with
  | none => none
  | some s =>
    if s = "" then none
    else
      match normalizeString (some s) with
      | none => none
      | some u => some (String.mk (trimChars (replaceBullet (stripLeadingIn u.toList))))

/-! ## URL handling (`absoluteUrl` of `jobProcessor.js`) -/

/-- Character list of the literal `"http://"`. -/
def httpSchemeChars : List Char := ['h', 't', 't', 'p', ':', '/', '/']

/-- Character list of the literal `"https://"`. -/
def httpsSchemeChars : List Char := ['h', 't', 't', 'p', 's', ':', '/', '/']

/-- Boolean prefix test on character lists (model of `String.prototype.startsWith`). -/
def leadsWith : List Char → List Char → Bool
  | [], _ => true
  | _ :: _, [] => false
  | c :: cs, d :: ds => c == d && leadsWith cs ds

/-- Model of `url.startsWith('http://') || url.startsWith('https://')`. -/
def startsHttp (s : String) : Bool :=
  leadsWith httpSchemeChars s.toList || leadsWith httpsSchemeChars s.toList

/-- Split an http(s) base URL into its scheme prefix (including `"://"`), host,
and path (empty or starting with `'/'`); `none` if the base is not of that shape. -/
def parseHttpBase (base : String) : Option (List Char × List Char × List Char) :=
  if leadsWith httpsSchemeChars base.toList then
    let rest := base.toList.drop 8
    let host := rest.takeWhile (fun c => !(c == '/'))
    if host = [] then none
    else some (httpsSchemeChars, host, rest.dropWhile (fun c => !(c == '/')))
  else if leadsWith httpSchemeChars base.toList then
    let rest := base.toList.drop 7
    let host := rest.takeWhile (fun c => !(c == '/'))
    if host = [] then none
    else some (httpSchemeChars, host, rest.dropWhile (fun c => !(c == '/')))
  else none

/-- The directory part of a path: everything up to and including the last
`'/'`, or `"/"` for a path without one. -/
def dirOf (path : List Char) : List Char :=
  let d := (path.reverse.dropWhile (fun c => !(c == '/'))).reverse
  if d = [] then ['/'] else d

/-- Model of the WHATWG `new URL(url, baseUrl).toString()` call of
`absoluteUrl`, restricted to the shapes this code base produces: an http(s)
base URL, and a relative, root-relative, or protocol-relative `url`.  Inputs
outside that fragment (non-http schemes, userinfo, dot-segment and
percent-encoding normalization, non-http bases) are conservatively mapped to
`none`, the value `absoluteUrl` returns when `new URL` throws.  Every
successful result starts with `"http://"` or `"https://"` by construction. -/
def newUrlResolve (url base : String) : Option String :=
  match parseHttpBase base with
  | none => none
  | some (pre, host, path) =>
    match url.toList with
    | '/' :: '/' :: rest =>
      if rest.takeWhile (fun c => !(c == '/')) = [] then none
      else some (String.mk (pre ++ rest))
    | '/' :: rest => some (String.mk (pre ++ (host ++ '/' :: rest)))
    | [] => some (String.mk (pre ++ (host ++ (if path = [] then ['/'] else path))))
    | u =>
      if (u.takeWhile (fun c => !(c == '/'))).contains ':' then none
      else some (String.mk (pre ++ (host ++ (dirOf path ++ u))))

/-- Model of `absoluteUrl` from `jobProcessor.js`: `null` stays `null`, an
already-absolute http(s) URL is returned unchanged, anything else is resolved
against the base URL, with resolution failure mapped to `null`. -/
def absoluteUrl (url : Option String) (baseUrl : String) : Option String :=
  match url with
  | none => none
  | some u =>
    if u = "" then none
    else if startsHttp u then some u
    else newUrlResolve u baseUrl

/-! ## The job record and the pipeline (`jobProcessor.js`) -/

/-- A raw or cleaned job object.  The seven named fields are the ones
`cleanJob` rewrites; `extra` models any further enumerable keys of the
JavaScript object (for example `experience`, `skills`, `source`, `scrapedAt`),
which `cleanJob` copies through unchanged.  The source's `rawHtml` key is
excluded by `cleanJob` and is not modelled. -/
structure Job where
  jobId : Option String
  title : Option String
  company : Option String
  location : Option String
  jobUrl : Option String
  salary : Option String
  snippet : Option String
  extra : List (String × String)
deriving DecidableEq, Repr

/-- The three options `processJobs` destructures, with its defaults. -/
structure ProcessOptions where
  baseUrl : String
  dedupeBy : String
  removeInvalid : Bool
deriving DecidableEq, Repr

/-- Defaults of `cleanJob`/`processJobs`: base `https://www.indeed.com`,
dedupe by `jobId`, invalid removal on. -/
def defaultOptions : ProcessOptions :=
  ⟨"https://www.indeed.com", "jobId", true⟩

/-- Model of `cleanJob` from `jobProcessor.js`. -/
def cleanJob (opts : ProcessOptions) (j : Job) : Job :=
  { jobId := normalizeString j.jobId
    title := normalizeString j.title
    company := normalizeCompanyName j.company
    location := normalizeLocation j.location
    jobUrl := absoluteUrl j.jobUrl opts.baseUrl
    salary := normalizeString j.salary
    snippet := normalizeString j.snippet
    extra := j.extra }

/-- Model of `cleanJobs`: clean every job in the list. -/
def cleanJobs (opts : ProcessOptions) (jobs : List Job) : List Job :=
  jobs.map (cleanJob opts)

/-- JavaScript template-literal stringification of a nullable string, as used
by the composite dedup key `` `${job.jobId}|${job.jobUrl}` ``. -/
def jsToString : Option String → String
  | none => "null"
  | some s => s

/-- The dedup key `removeDuplicates` computes for a job, as a function of the
two fields it reads.  The `dedupeBy` dispatch mirrors the source's
`if`/`else if` chain, including the `job.jobId || job.jobUrl` fallback of the
final `else` branch. -/
def dedupKeyOf (dedupeBy : String) (jobId jobUrl : Option String) : Option String :=
  if dedupeBy = "jobId" then jobId
  else if dedupeBy = "jobUrl" then jobUrl
  else if dedupeBy = "both" then some (jsToString jobId ++ "|" ++ jsToString jobUrl)
  else
    match jobId with
    | some s => if s = "" then jobUrl else some s
    | none => jobUrl

/-- The dedup key of a job. -/
def dedupKey (dedupeBy : String) (j : Job) : Option String :=
  dedupKeyOf dedupeBy j.jobId j.jobUrl

/-- Whether a job's dedup key is truthy (present and non-empty); the source's
`if (!key || seen.has(key)) continue;` drops jobs with a falsy key. -/
def truthyKey (dedupeBy : String) (j : Job) : Bool :=
  match dedupKey dedupeBy j with
  | none => false
  | some k => !(k == "")

/-- Loop of `removeDuplicates`, with `seen` accumulating the keys already kept:
a job whose key is falsy or already seen is skipped, otherwise it is kept and
its key recorded. -/
def removeDuplicatesAux (dedupeBy : String) (seen : List String) : List Job → List Job
  | [] => []
  | j :: rest =>
    match dedupKey dedupeBy j with
    | none => removeDuplicatesAux dedupeBy seen rest
    | some k =>
      if k = "" ∨ k ∈ seen then removeDuplicatesAux dedupeBy seen rest
      else j :: removeDuplicatesAux dedupeBy (k :: seen) rest

/-- Model of `removeDuplicates` from `jobProcessor.js`. -/
def removeDuplicates (jobs : List Job) (dedupeBy : String) : List Job :=
  removeDuplicatesAux dedupeBy [] jobs

/-- The predicate of `filterValidJobs`: a job must have a truthy title or
company, and a truthy job URL or job id. -/
def validJob (j : Job) : Bool :=
  if !truthy j.title && !truthy j.company then false
  else if !truthy j.jobUrl && !truthy j.jobId then false
  else true

/-- Model of `filterValidJobs` from `jobProcessor.js`. -/
def filterValidJobs (jobs : List Job) : List Job :=
  jobs.filter validJob

/-- The `stats` block `processJobs` returns. -/
structure ProcessStats where
  original : Nat
  duplicates : Nat
  invalid : Nat
  final : Nat
deriving DecidableEq, Repr

/-- The `{ jobs, stats }` object `processJobs` returns. -/
structure ProcessResult where
  jobs : List Job
  stats : ProcessStats
deriving DecidableEq, Repr

/-- Model of `processJobs` from `jobProcessor.js`: clean, deduplicate, filter
(when `removeInvalid`), and report counts. -/
def processJobs (jobs : List Job) (opts : ProcessOptions) : ProcessResult :=
  let originalCount := jobs.length
  let cleaned := cleanJobs opts jobs
  let beforeDedup := cleaned.length
  let deduped := removeDuplicates cleaned opts.dedupeBy
  let duplicatesRemoved := beforeDedup - deduped.length
  let processed := if opts.removeInvalid then filterValidJobs deduped else deduped
  let invalidCount := if opts.removeInvalid then deduped.length - processed.length else 0
  { jobs := processed
    stats :=
      { original := originalCount
        duplicates := duplicatesRemoved
        invalid := invalidCount
        final := processed.length } }

/-! ## Parameter validation (`validateParams` of the four adapters) -/

/-- The parameters `validateParams` inspects.  `keyword`/`location` are
`none` when absent (values of other JavaScript types are outside the model:
for string-typed inputs the `typeof` checks of the source are vacuous).
`maxPages` is `none` for `undefined`; numbers are modelled as integers, on
which the Naukri validators' `parseInt` is the identity. -/
structure ScrapeParams where
  keyword : Option String
  location : Option String
  maxPages : Option Int
deriving DecidableEq, Repr

/-- The `{ isValid, errors }` object the validators return;
`isValid` is `errors.length === 0`. -/
structure ValidationResult where
  isValid : Bool
  errors : List String
deriving DecidableEq, Repr

/-- Build a `ValidationResult` from the collected error list. -/
def mkValidationResult (errors : List String) : ValidationResult :=
  ⟨errors.length == 0, errors⟩

/-- Model of `validateParams` of `IndeedScraper` and of
`PlaywrightIndeedScraper` (the two bodies are character-identical in the
source).  The page-count check runs only when `maxPages` is truthy (so `0`
and `undefined` skip it) and only rejects values below 1 — there is no upper
bound. -/
def indeedValidateParams (p : ScrapeParams) : ValidationResult :=
  let e1 := if truthy p.keyword then [] else ["keyword is required and must be a string"]
  let e2 := if truthy p.location then [] else ["location is required and must be a string"]
  let e3 :=
    match p.maxPages with
    | none => []
    | some n =>
      if !(n == 0) && n < 1 then ["maxPages must be a positive number"] else []
  mkValidationResult (e1 ++ e2 ++ e3)

/-- Model of `validateParams` of `NaukriScraper` and of
`PlaywrightNaukriScraper` (again character-identical bodies): when
`maxPages !== undefined`, it must lie within 1..20. -/
def naukriValidateParams (p : ScrapeParams) : ValidationResult :=
  let e1 := if truthy p.keyword then [] else ["keyword is required and must be a string"]
  let e2 := if truthy p.location then [] else ["location is required and must be a string"]
  let e3 :=
    match p.maxPages with
    | none => []
    | some n =>
      if n < 1 || 20 < n then ["maxPages must be a number between 1 and 20"] else []
  mkValidationResult (e1 ++ e2 ++ e3)

/-! ## Per-card extraction (the parse/extract functions of the adapters)

A `Card` carries the per-card values the DOM queries resolve to: for the
cheerio-based scrapers, a field of the card is the text `.find(...).first().text()`
returns (`""` when no element matches), modelled as `Option String` with
`none` for "no element"; for the Playwright scrapers a missing element gives
`null` directly.  The prioritized selector alternatives inside one field all
feed the same resolved value, so they are abstracted into that value. -/
structure Card where
  jobIdAttr : Option String
  titleText : Option String
  companyText : Option String
  locationText : Option String
  hrefAttr : Option String
  salaryText : Option String
  snippetText : Option String
deriving DecidableEq, Repr

/-- Model of `String.prototype.trim` on a `String`. -/
def jsTrim (s : String) : String :=
  String.mk (trimChars s.toList)

/-- Cheerio-style field resolution: the text of the first match (empty when
nothing matched), trimmed, with `|| null` mapping `""` to `null`. -/
def cheerioField (v : Option String) : Option String :=
  let t := jsTrim (match v with | none => "" | some s => s)
  if t = "" then none else some t

/-- Playwright-style field resolution inside `page.evaluate`:
`el ? el.textContent.trim() : null` (an empty trimmed text stays `""`). -/
def pwField (v : Option String) : Option String :=
  match v with
  | none => none
  | some s => some (jsTrim s)

/-- The job URL built by `IndeedScraper.parseJobListings`: from the link's
`href` if a link matched (absolute, or prefixed with the base URL), else the
`viewjob` fallback from a truthy job id, else `null`. -/
def indeedCardUrl (baseUrl : String) (c : Card) : Option String :=
  match c.hrefAttr with
  | some href =>
    if leadsWith ['h', 't', 't', 'p'] href.toList then some href
    else some (baseUrl ++ href)
  | none =>
    match c.jobIdAttr with
    | some jid => if jid = "" then none else some (baseUrl ++ "/viewjob?jk=" ++ jid)
    | none => none

/-- The loop body of `IndeedScraper.parseJobListings` for one card: a fragment
is emitted iff the resolved title or company is non-empty. -/
def indeedCardFragment (baseUrl : String) (c : Card) : Option Job :=
  let title := cheerioField c.titleText
  let company := cheerioField c.companyText
  if truthy title || truthy company then
    some
      { jobId := c.jobIdAttr
        title := title
        company := company
        location := cheerioField c.locationText
        jobUrl := indeedCardUrl baseUrl c
        salary := cheerioField c.salaryText
        snippet := cheerioField c.snippetText
        extra := [] }
  else none

/-- The loop body of `PlaywrightIndeedScraper.extractJobListings` for one
card: unlike the other three extractors, a fragment is emitted only if the
title AND the company are both non-empty (`if (title && company)`). -/
def pwIndeedCardFragment (origin : String) (c : Card) : Option Job :=
  let title := pwField c.titleText
  let company := pwField c.companyText
  if truthy title && truthy company then
    some
      { jobId := c.jobIdAttr
        title := title
        company := company
        location := pwField c.locationText
        jobUrl :=
          match c.hrefAttr with
          | some href =>
            if leadsWith ['h', 't', 't', 'p'] href.toList then some href
            else some (origin ++ href)
          | none =>
            match c.jobIdAttr with
            | some jid => if jid = "" then none else some (origin ++ "/viewjob?jk=" ++ jid)
            | none => none
        salary := pwField c.salaryText
        snippet := pwField c.snippetText
        extra := [] }
  else none

/-- The loop body of `NaukriScraper.parseJobListings` for one card (fields the
claims never consume — experience, skills, scrapedAt — are carried in `extra`
only as the constant `source` marker). -/
def naukriCardFragment (baseUrl : String) (c : Card) : Option Job :=
  let title := cheerioField c.titleText
  let company := cheerioField c.companyText
  if truthy title || truthy company then
    some
      { jobId := c.jobIdAttr
        title := title
        company := company
        location := cheerioField c.locationText
        jobUrl :=
          match c.hrefAttr with
          | some href =>
            if leadsWith ['h', 't', 't', 'p'] href.toList then some href
            else some (baseUrl ++ href)
          | none =>
            match c.jobIdAttr with
            | some jid => if jid = "" then none else some (baseUrl ++ "/job-listings-" ++ jid)
            | none => none
        salary := cheerioField c.salaryText
        snippet := cheerioField c.snippetText
        extra := [("source", "Naukri")] }
  else none

/-- The loop body of `PlaywrightNaukriScraper.extractJobs` for one card. -/
def pwNaukriCardFragment (c : Card) : Option Job :=
  let title := pwField c.titleText
  let company := pwField c.companyText
  if truthy title || truthy company then
    some
      { jobId := c.jobIdAttr
        title := title
        company := company
        location := pwField c.locationText
        jobUrl :=
          match c.hrefAttr with
          | some href =>
            if leadsWith ['h', 't', 't', 'p'] href.toList then some href
            else some ("https://www.naukri.com" ++ href)
          | none => none
        salary := pwField c.salaryText
        snippet := pwField c.snippetText
        extra := [("source", "Naukri")] }
  else none

/-- A whole-page extraction: every matched card, in order, through one of the
per-card functions. -/
def parseCards (frag : Card → Option Job) (cards : List Card) : List Job :=
  cards.filterMap frag

/-! ## Scrape runs

The page loops of the four `scrape` methods, driven by oracles standing for
the network/DOM: an HTTP-mode page oracle maps a 1-indexed page number to the
parsed fragments of that page (`Except.error` when the fetch throws).  The
loops record which pages were requested, what was collected, and the error
records pushed into the adapter's `stats.errors`. -/

/-- One record of an adapter's `stats.errors` array: `origin` is `"fetch"`
for records pushed by `fetchPage`/`navigateToUrl`/`navigateToPage` and
`"page"` for records pushed by a page loop's `catch`; `page` is the 1-indexed
page for records that carry one. -/
structure ErrRec where
  origin : String
  page : Option Nat
  message : String
deriving DecidableEq, Repr

/-- Mutable state of one HTTP-mode scrape run. -/
structure HttpRun where
  pagesRequested : List Nat
  collected : List Job
  consecEmpty : Nat
  errors : List ErrRec
deriving DecidableEq, Repr

/-- Fresh run state. -/
def initHttpRun : HttpRun := ⟨[], [], 0, []⟩

/-- The page loop of `IndeedScraper.scrape`, over the 0-indexed pages still to
visit.  An empty page increments `consecutiveEmptyPages` and two consecutive
empty pages break the loop; a non-empty page resets the counter and appends;
a fetch error records two error entries (one by `fetchPage`, one by the loop's
`catch`), increments the same counter, and breaks at three. -/
def indeedPages (oracle : Nat → Except String (List Job)) :
    List Nat → HttpRun → HttpRun
  | [], st => st
  | page :: rest, st =>
    let st := { st with pagesRequested := st.pagesRequested ++ [page + 1] }
    match oracle (page + 1) with
    | .ok jobs =>
      if jobs.length = 0 then
        let c := st.consecEmpty + 1
        if 2 ≤ c then { st with consecEmpty := c }
        else indeedPages oracle rest { st with consecEmpty := c }
      else
        indeedPages oracle rest
          { st with consecEmpty := 0, collected := st.collected ++ jobs }
    | .error msg =>
      let st :=
        { st with
          errors := st.errors ++
            ([⟨"fetch", none, msg⟩, ⟨"page", some (page + 1), msg⟩] : List ErrRec) }
      let c := st.consecEmpty + 1
      if 3 ≤ c then { st with consecEmpty := c }
      else indeedPages oracle rest { st with consecEmpty := c }

/-- Model of `IndeedScraper.scrape`: run the page loop over pages
`0..maxPages-1`, then pass the accumulator through `processJobs` with
`{ baseUrl, dedupeBy: 'jobId', removeInvalid: true }` and return the
processed `jobs` array. -/
def indeedScrape (oracle : Nat → Except String (List Job)) (baseUrl : String)
    (maxPages : Nat) : List Job × HttpRun :=
  let st := indeedPages oracle (List.range maxPages) initHttpRun
  ((processJobs st.collected ⟨baseUrl, "jobId", true⟩).jobs, st)

/-- The page loop of `NaukriScraper.scrape`, over the 1-indexed pages still to
visit: fragments are appended before the emptiness check, the loop breaks on
the first empty page, and a fetch error (recorded once, by `fetchPage`) just
continues with the next page. -/
def naukriPages (oracle : Nat → Except String (List Job)) :
    List Nat → HttpRun → HttpRun
  | [], st => st
  | page :: rest, st =>
    let st := { st with pagesRequested := st.pagesRequested ++ [page] }
    match oracle page with
    | .ok jobs =>
      let st := { st with collected := st.collected ++ jobs }
      if jobs.length = 0 then st
      else naukriPages oracle rest st
    | .error msg =>
      naukriPages oracle rest
        { st with errors := st.errors ++ [⟨"fetch", none, msg⟩] }

/-- Model of `NaukriScraper.scrape`: the page loop over pages `1..maxPages`,
then `processJobs(allJobs)` with all defaults — and the source returns that
whole `{ jobs, stats }` object, not the `jobs` array. -/
def naukriScrape (oracle : Nat → Except String (List Job)) (maxPages : Nat) :
    ProcessResult × HttpRun :=
  let st := naukriPages oracle (List.range' 1 maxPages) initHttpRun
  (processJobs st.collected defaultOptions, st)

/-- Oracles standing for the browser environment of a Playwright run:
`launch` for `chromium.launch`, `context` for the
`newContext`/`newPage` steps, `nav` for one page navigation, `found` for the
outcome of `waitForJobListings`, and `extract` for the in-page extraction. -/
structure PwOracles where
  launch : Except String Unit
  context : Except String Unit
  nav : Nat → Except String Unit
  found : Nat → Bool
  extract : Nat → Except String (List Job)

/-- Mutable state of one Playwright run, including the browser-process
resource accounting: `launches` counts successful `chromium.launch` calls,
`closes` counts `browser.close()` calls. -/
structure PwRun where
  pagesRequested : List Nat
  collected : List Job
  launches : Nat
  closes : Nat
  browserLive : Bool
  pageLive : Bool
  errors : List ErrRec
deriving DecidableEq, Repr

/-- Fresh Playwright run state. -/
def initPwRun : PwRun := ⟨[], [], 0, 0, false, false, []⟩

/-- The `cleanup` method of both Playwright scrapers: close the page if open,
then close the browser if open.  (Close calls themselves are modelled as
non-failing.) -/
def pwCleanup (st : PwRun) : PwRun :=
  let st := if st.pageLive then { st with pageLive := false } else st
  if st.browserLive then
    { st with browserLive := false, closes := st.closes + 1 }
  else st

/-- The page loop of `PlaywrightIndeedScraper.scrape` over 0-indexed pages: a
navigation failure records an error and propagates out of the loop; a page
where no listing card became visible is skipped with `continue` (no early
stop); an extraction failure propagates; otherwise the fragments are appended
(even when there are zero of them) and the loop continues. -/
def pwIndeedPages (o : PwOracles) :
    List Nat → PwRun → Except String Unit × PwRun
  | [], st => (.ok (), st)
  | page :: rest, st =>
    let st := { st with pagesRequested := st.pagesRequested ++ [page + 1] }
    match o.nav (page + 1) with
    | .error m =>
      (.error m, { st with errors := st.errors ++ [⟨"fetch", some (page + 1), m⟩] })
    | .ok _ =>
      if o.found (page + 1) then
        match o.extract (page + 1) with
        | .error m => (.error m, st)
        | .ok jobs =>
          pwIndeedPages o rest { st with collected := st.collected ++ jobs }
      else pwIndeedPages o rest st

/-- Model of `PlaywrightIndeedScraper.scrape`: launch the browser, create the
context and page, run the page loop, and — in a `finally` — always run
`cleanup`, on the normal path and on every throwing path, including a launch
failure.  The raw accumulated fragments are returned without `processJobs`. -/
def pwIndeedScrape (o : PwOracles) (maxPages : Nat) :
    Except String (List Job) × PwRun :=
  match o.launch with
  | .error m => (.error m, pwCleanup initPwRun)
  | .ok _ =>
    let st1 := { initPwRun with launches := initPwRun.launches + 1, browserLive := true }
    match o.context with
    | .error m => (.error m, pwCleanup st1)
    | .ok _ =>
      let st2 := { st1 with pageLive := true }
      match pwIndeedPages o (List.range maxPages) st2 with
      | (.ok _, st) => (.ok st.collected, pwCleanup st)
      | (.error m, st) => (.error m, pwCleanup st)

/-- The page loop of `PlaywrightNaukriScraper.scrape` over 1-indexed pages: a
navigation failure is caught by the loop's own `catch` and the loop continues;
extraction failures are swallowed inside `extractJobs` (yielding `[]`);
fragments are appended before the emptiness check, and the loop breaks on the
first empty page. -/
def pwNaukriPages (o : PwOracles) : List Nat → PwRun → PwRun
  | [], st => st
  | page :: rest, st =>
    let st := { st with pagesRequested := st.pagesRequested ++ [page] }
    match o.nav page with
    | .error m =>
      pwNaukriPages o rest { st with errors := st.errors ++ [⟨"fetch", some page, m⟩] }
    | .ok _ =>
      let jobs := match o.extract page with | .ok js => js | .error _ => []
      let st := { st with collected := st.collected ++ jobs }
      if jobs.length = 0 then st
      else pwNaukriPages o rest st

/-- Model of `PlaywrightNaukriScraper.scrape`: launch, context/page, the page
loop (which cannot throw), then `processJobs(allJobs)` with defaults — again
returning the whole `{ jobs, stats }` object — and `cleanup` in a `finally`
on every path. -/
def pwNaukriScrape (o : PwOracles) (maxPages : Nat) :
    Except String ProcessResult × PwRun :=
  match o.launch with
  | .error m => (.error m, pwCleanup initPwRun)
  | .ok _ =>
    let st1 := { initPwRun with launches := initPwRun.launches + 1, browserLive := true }
    match o.context with
    | .error m => (.error m, pwCleanup st1)
    | .ok _ =>
      let st2 := { st1 with pageLive := true }
      let st := pwNaukriPages o (List.range' 1 maxPages) st2
      (.ok (processJobs st.collected defaultOptions), pwCleanup st)

/-! ## The job runner (`executeJob` of the scrape job runner) -/

/-- The slice of `executeJob`'s result object the claims consume. -/
structure JobRunResult where
  status : String
  jobs : List Job
  errors : List ErrRec
deriving DecidableEq, Repr

/-- Model of `executeJob` for a run driving the HTTP-mode `IndeedScraper`:
validate the parameters (a validation failure throws, is caught, and marks
the run `failed`); otherwise run `scrape` and mark the run `completed`,
copying the scraper's error records into the result.  `continueOnError` only
governs whether a caught error is re-thrown to the caller after the result is
assembled; it is not passed to the scraper, whose page loop swallows per-page
fetch errors itself, so the field does not influence the result record. -/
def executeJobIndeedHttp (oracle : Nat → Except String (List Job))
    (keyword location : String) (maxPages : Nat) (continueOnError : Bool) :
    JobRunResult :=
  let params : ScrapeParams := ⟨some keyword, some location, some (Int.ofNat maxPages)⟩
  let v := indeedValidateParams params
  if v.isValid then
    let r := indeedScrape oracle "https://in.indeed.com" maxPages
    { status := "completed", jobs := r.1, errors := r.2.errors }
  else
    let _ := continueOnError
    { status := "failed", jobs := [], errors := [⟨"run", none, "Invalid parameters"⟩] }

/-! ## Concrete fixtures used by counterexamples and witnesses -/

/-- A minimal well-formed fragment. -/
def sampleJob : Job := ⟨some "j1", some "Dev", some "Acme", none, none, none, none, []⟩

/-- A pure page stub: one fragment on page 1, nothing from page 2 on. -/
def stubOnePage : Nat → List Job := fun p => if p = 1 then [sampleJob] else []

/-- Lift a pure page stub to an always-successful fetch/extract oracle. -/
def okOracle (stub : Nat → List Job) : Nat → Except String (List Job) :=
  fun p => .ok (stub p)

/-- Browser-environment oracles for a pure page stub: launch, context and
navigation always succeed, the listing-card wait succeeds exactly on pages
with fragments, extraction yields the stub's fragments. -/
def pwStubOracles (stub : Nat → List Job) : PwOracles :=
  ⟨.ok (), .ok (), fun _ => .ok (), fun p => !(stub p).isEmpty, fun p => .ok (stub p)⟩

/-- An oracle whose first fetch fails like a 403 (`BlockedOrForbidden`) and
whose later pages are empty. -/
def stubBlockedFirst : Nat → Except String (List Job) :=
  fun p => if p = 1 then .error "Request failed with status code 403" else .ok []

/-- A fragment whose company name carries parenthetical review-count noise
between two spaced words. -/
def parenJob : Job :=
  ⟨some "id1", some "Dev", some "Acme (42 reviews) Corp", none, none, none, none, []⟩

/-- A fragment with no `jobId` (its dedup key under the default
configuration), though otherwise fully valid. -/
def noKeyJob : Job :=
  ⟨none, some "Dev", some "Acme", none, some "https://x/1", none, none, []⟩

/-- A second fragment sharing no key with `sampleJob`. -/
def otherJob : Job := ⟨some "j2", some "QA", some "Beta", none, none, none, none, []⟩

/-- A card that resolved a title but no company element. -/
def titleOnlyCard : Card := ⟨some "c1", some "Engineer", none, none, none, none, none⟩

/-! ## Predicates used by the pipeline proofs -/

/-- The head (if any) is not whitespace. -/
def headNonWs (l : List Char) : Prop :=
  ∀ c, l.head? = some c → isWs c = false

/-- The last character (if any) is not whitespace. -/
def tailNonWs (l : List Char) : Prop :=
  ∀ c, l.getLast? = some c → isWs c = false

/-- Whitespace-collapsed shape: every whitespace character is a space and is
not followed by another whitespace character. -/
def jsCollapsedB : List Char → Bool
  | [] => true
  | c :: rest =>
    (if isWs c then
      c == ' ' && (match rest with | [] => true | c2 :: _ => !isWs c2)
     else true)
    && jsCollapsedB rest

/-- Whether some `'('` is followed (not necessarily adjacently) by a `')'`. -/
def hasPair : List Char → Bool
  | [] => false
  | c :: rest => (c == '(' && rest.contains ')') || hasPair rest

/-! ## Basic lemmas about the dedup loop -/

theorem removeDuplicatesAux_sublist (d : String) (seen : List String) (l : List Job) :
    (removeDuplicatesAux d seen l).Sublist l := by
  induction l generalizing seen with
  | nil => simp [removeDuplicatesAux]
  | cons j rest ih =>
    simp only [removeDuplicatesAux]
    cases hkey : dedupKey d j with
    | none => exact (ih seen).cons j
    | some k =>
      by_cases hk : k = "" ∨ k ∈ seen
      · simp only [if_pos hk]
        exact (ih seen).cons j
      · simp only [if_neg hk]
        exact (ih (k :: seen)).cons₂ j

theorem removeDuplicates_length_le (jobs : List Job) (d : String) :
    (removeDuplicates jobs d).length ≤ jobs.length :=
  (removeDuplicatesAux_sublist d [] jobs).length_le

/-- Claim C3: for every fragment list and every configuration with
`removeInvalid = true`, the stats of `processJobs` satisfy
`final + duplicates + invalid = original`, and `original` is the input
length. -/
theorem processJobs_count_identity (jobs : List Job) (baseUrl dedupeBy : String) :
    (processJobs jobs ⟨baseUrl, dedupeBy, true⟩).stats.final
        + (processJobs jobs ⟨baseUrl, dedupeBy, true⟩).stats.duplicates
        + (processJobs jobs ⟨baseUrl, dedupeBy, true⟩).stats.invalid
      = (processJobs jobs ⟨baseUrl, dedupeBy, true⟩).stats.original
    ∧ (processJobs jobs ⟨baseUrl, dedupeBy, true⟩).stats.original = jobs.length := by
  have h1 : (cleanJobs ⟨baseUrl, dedupeBy, true⟩ jobs).length = jobs.length := by
    simp [cleanJobs]
  have h2 := removeDuplicates_length_le (cleanJobs ⟨baseUrl, dedupeBy, true⟩ jobs) dedupeBy
  have h3 := List.length_filter_le validJob
    (removeDuplicates (cleanJobs ⟨baseUrl, dedupeBy, true⟩ jobs) dedupeBy)
  refine ⟨?_, rfl⟩
  simp only [processJobs, filterValidJobs, if_true]
  omega

/-- Claim C7 counterexample: the Indeed validators accept a page count of 25,
though the claim requires every adapter to reject any value above 20. -/
theorem indeed_validateParams_accepts_25_pages :
    (20 : Int) < 25
      ∧ (indeedValidateParams ⟨some "dev", some "pune", some 25⟩).isValid = true := by
  decide

/-- Claim C7 (amended): the Naukri validators accept exactly non-empty keyword
and location with `maxPages` absent or within 1..20; the Indeed validators
accept exactly non-empty keyword and location with `maxPages` absent, zero
(falsy, so unchecked) or at least 1 — they impose no upper bound. -/
theorem validateParams_characterization (p : ScrapeParams) :
    ((naukriValidateParams p).isValid = true ↔
        truthy p.keyword = true ∧ truthy p.location = true ∧
          (p.maxPages = none ∨ ∃ n, p.maxPages = some n ∧ 1 ≤ n ∧ n ≤ 20))
    ∧ ((indeedValidateParams p).isValid = true ↔
        truthy p.keyword = true ∧ truthy p.location = true ∧
          (p.maxPages = none ∨ p.maxPages = some 0 ∨
            ∃ n, p.maxPages = some n ∧ 1 ≤ n)) := by
  obtain ⟨k, l, m⟩ := p
  constructor
  · cases m with
    | none =>
      by_cases hk : truthy k <;> by_cases hl : truthy l <;>
        simp [naukriValidateParams, mkValidationResult, hk, hl]
    | some n =>
      by_cases hk : truthy k <;> by_cases hl : truthy l <;>
        by_cases hn : n < 1 ∨ 20 < n <;>
          simp [naukriValidateParams, mkValidationResult, hk, hl, hn] <;> omega
  · cases m with
    | none =>
      by_cases hk : truthy k <;> by_cases hl : truthy l <;>
        simp [indeedValidateParams, mkValidationResult, hk, hl]
    | some n =>
      by_cases hk : truthy k <;> by_cases hl : truthy l <;>
        by_cases hn : !(n == 0) && n < 1 <;>
          simp only [indeedValidateParams, mkValidationResult, hk, hl, hn] <;>
            simp_all <;> omega

/-- Claim C10: the Indeed validators accept `maxPages = 0` whenever keyword
and location are non-empty strings, because the page-count check is guarded
by the truthiness of `maxPages` and `0` is falsy. -/
theorem indeed_validateParams_accepts_zero_maxPages (k l : String)
    (hk : k ≠ "") (hl : l ≠ "") :
    (indeedValidateParams ⟨some k, some l, some 0⟩).isValid = true := by
  simp [indeedValidateParams, mkValidationResult, truthy, hk, hl]

/-- Witness for claim C10 at concrete non-empty keyword and location. -/
theorem indeed_validateParams_accepts_zero_maxPages_witness :
    ("dev" : String) ≠ "" ∧ ("pune" : String) ≠ "" ∧
      (indeedValidateParams ⟨some "dev", some "pune", some 0⟩).isValid = true :=
  ⟨by decide, by decide,
    indeed_validateParams_accepts_zero_maxPages "dev" "pune" (by decide) (by decide)⟩

/-- Claim C8 counterexample: a card that resolved a title but no company is
dropped by the Playwright Indeed extractor (its guard is `title && company`),
while the HTTP Indeed extractor keeps the same card. -/
theorem pwIndeed_skips_title_only_card :
    pwIndeedCardFragment "https://in.indeed.com" titleOnlyCard = none
      ∧ indeedCardFragment "https://in.indeed.com" titleOnlyCard ≠ none := by
  decide

/-- Claim C8 (amended): the HTTP Indeed, HTTP Naukri and Playwright Naukri
extractors emit a fragment for a card exactly when the resolved title or the
resolved company is non-empty; the Playwright Indeed extractor emits one
exactly when both are non-empty.  All four are total: an all-empty card is
skipped, never an error. -/
theorem card_inclusion_characterization (base origin : String) (c : Card) :
    (indeedCardFragment base c).isSome
        = (truthy (cheerioField c.titleText) || truthy (cheerioField c.companyText))
    ∧ (naukriCardFragment base c).isSome
        = (truthy (cheerioField c.titleText) || truthy (cheerioField c.companyText))
    ∧ (pwNaukriCardFragment c).isSome
        = (truthy (pwField c.titleText) || truthy (pwField c.companyText))
    ∧ (pwIndeedCardFragment origin c).isSome
        = (truthy (pwField c.titleText) && truthy (pwField c.companyText)) := by
  refine ⟨?_, ?_, ?_, ?_⟩
  · by_cases h : truthy (cheerioField c.titleText) || truthy (cheerioField c.companyText) <;>
      simp [indeedCardFragment, h]
  · by_cases h : truthy (cheerioField c.titleText) || truthy (cheerioField c.companyText) <;>
      simp [naukriCardFragment, h]
  · by_cases h : truthy (pwField c.titleText) || truthy (pwField c.companyText) <;>
      simp [pwNaukriCardFragment, h]
  · by_cases h : truthy (pwField c.titleText) && truthy (pwField c.companyText) <;>
      simp [pwIndeedCardFragment, h]

/-- Claim C1: evaluation of the Naukri `scrape` methods at a one-page stub.
Both return the whole `processJobs` wrapper `{ jobs, stats }` — the shape the
claim (and the methods' own `@returns` documentation) says should be a bare
array of listings. -/
theorem naukri_scrape_returns_wrapper :
    (naukriScrape (okOracle stubOnePage) 1).1
        = { jobs := [sampleJob]
            stats := { original := 1, duplicates := 0, invalid := 0, final := 1 } }
      ∧ (pwNaukriScrape (pwStubOracles stubOnePage) 1).1
        = .ok { jobs := [sampleJob]
                stats := { original := 1, duplicates := 0, invalid := 0, final := 1 } } :=
  ⟨rfl, rfl⟩

/-! ## Browser resource accounting -/

theorem pwIndeedPages_resources (o : PwOracles) (pages : List Nat) (st : PwRun) :
    (pwIndeedPages o pages st).2.launches = st.launches
    ∧ (pwIndeedPages o pages st).2.closes = st.closes
    ∧ (pwIndeedPages o pages st).2.browserLive = st.browserLive
    ∧ (pwIndeedPages o pages st).2.pageLive = st.pageLive := by
  induction pages generalizing st with
  | nil => simp [pwIndeedPages]
  | cons page rest ih =>
    simp only [pwIndeedPages]
    cases o.nav (page + 1) with
    | error m => simp
    | ok u =>
      by_cases hf : o.found (page + 1)
      · simp only [hf, if_true]
        cases o.extract (page + 1) with
        | error m => simp
        | ok jobs => simpa using ih _
      · simp only [hf, if_false]
        simpa using ih _

theorem pwNaukriPages_resources (o : PwOracles) (pages : List Nat) (st : PwRun) :
    (pwNaukriPages o pages st).launches = st.launches
    ∧ (pwNaukriPages o pages st).closes = st.closes
    ∧ (pwNaukriPages o pages st).browserLive = st.browserLive
    ∧ (pwNaukriPages o pages st).pageLive = st.pageLive := by
  induction pages generalizing st with
  | nil => simp [pwNaukriPages]
  | cons page rest ih =>
    simp only [pwNaukriPages]
    cases o.nav page with
    | error m => simpa using ih _
    | ok u =>
      by_cases he :
          (match o.extract page with | .ok js => js | .error _ => []).length = 0
      · simp [he]
      · simpa [he] using ih _

/-- Claim C9: for both Playwright scrapers, on every exit path of `scrape`
(launch failure, context/page failure, navigation or extraction failure on
any page, early stop, or normal completion — all ranged over by the oracles),
the number of browser-process acquisitions equals the number of releases and
no browser or page handle stays live, because the `finally`-cleanup runs on
every path. -/
theorem pwCleanup_balanced (st : PwRun) (hl : st.launches = 1) (hc : st.closes = 0)
    (hb : st.browserLive = true) :
    (pwCleanup st).launches = (pwCleanup st).closes
    ∧ (pwCleanup st).browserLive = false ∧ (pwCleanup st).pageLive = false := by
  by_cases hp : st.pageLive = true <;> simp [pwCleanup, hp, hb, hl, hc]

/-- Claim C9: for both Playwright scrapers, on every exit path of `scrape`
(launch failure, context/page failure, navigation or extraction failure on
any page, early stop, or normal completion — all ranged over by the oracles),
the number of browser-process acquisitions equals the number of releases and
no browser or page handle stays live, because the `finally`-cleanup runs on
every path. -/
theorem browser_acquire_release_balanced (o : PwOracles) (maxPages : Nat) :
    ((pwIndeedScrape o maxPages).2.launches = (pwIndeedScrape o maxPages).2.closes
      ∧ (pwIndeedScrape o maxPages).2.browserLive = false
      ∧ (pwIndeedScrape o maxPages).2.pageLive = false)
    ∧ ((pwNaukriScrape o maxPages).2.launches = (pwNaukriScrape o maxPages).2.closes
      ∧ (pwNaukriScrape o maxPages).2.browserLive = false
      ∧ (pwNaukriScrape o maxPages).2.pageLive = false) := by
  constructor
  · simp only [pwIndeedScrape]
    cases o.launch with
    | error m => simp [pwCleanup, initPwRun]
    | ok u =>
      cases o.context with
      | error m => simp [pwCleanup, initPwRun]
      | ok u2 =>
        obtain ⟨hl, hc, hb, hp⟩ := pwIndeedPages_resources o (List.range maxPages)
          { initPwRun with
            launches := initPwRun.launches + 1, browserLive := true, pageLive := true }
        cases hres : pwIndeedPages o (List.range maxPages)
            { initPwRun with
              launches := initPwRun.launches + 1, browserLive := true, pageLive := true } with
        | mk r st =>
          rw [hres] at hl hc hb hp
          cases r with
          | ok v =>
            exact pwCleanup_balanced st (by simpa [initPwRun] using hl)
              (by simpa [initPwRun] using hc) (by simpa [initPwRun] using hb)
          | error m =>
            exact pwCleanup_balanced st (by simpa [initPwRun] using hl)
              (by simpa [initPwRun] using hc) (by simpa [initPwRun] using hb)
  · simp only [pwNaukriScrape]
    cases o.launch with
    | error m => simp [pwCleanup, initPwRun]
    | ok u =>
      cases o.context with
      | error m => simp [pwCleanup, initPwRun]
      | ok u2 =>
        obtain ⟨hl, hc, hb, hp⟩ := pwNaukriPages_resources o (List.range' 1 maxPages)
          { initPwRun with
            launches := initPwRun.launches + 1, browserLive := true, pageLive := true }
        exact pwCleanup_balanced _ (by simpa [initPwRun] using hl)
          (by simpa [initPwRun] using hc) (by simpa [initPwRun] using hb)

/-! ## Early-stop behavior of the four page loops -/

/-- Claim C2 counterexample: with a stub yielding fragments only on page 1
and `maxPages = 10`, the browser-mode Indeed scraper requests every one of
the ten pages — it does not stop on the first empty page (its empty-page
branch is a `continue`), so in particular it requests page 4. -/
theorem pwIndeed_requests_all_pages_despite_empty :
    (pwIndeedScrape (pwStubOracles stubOnePage) 10).2.pagesRequested
        = [1, 2, 3, 4, 5, 6, 7, 8, 9, 10]
      ∧ 4 ∈ (pwIndeedScrape (pwStubOracles stubOnePage) 10).2.pagesRequested := by
  decide

/-- Claim C2 (amended): for every stub yielding non-empty fragments on page 1
and none afterwards, with `maxPages = 10`: the HTTP-mode Indeed scraper stops
after two consecutive empty pages (requests pages 1, 2, 3 and never page 4);
the HTTP-mode Naukri and browser-mode Naukri scrapers stop on the first empty
page (requests pages 1, 2); the browser-mode Indeed scraper performs no
empty-page early stop and requests all ten pages.  In every case the run ends
normally with the page-1 fragments collected. -/
theorem early_stop_per_adapter (stub : Nat → List Job) (baseUrl : String)
    (h1 : stub 1 ≠ []) (h2 : ∀ p, 2 ≤ p → stub p = []) :
    (indeedScrape (okOracle stub) baseUrl 10).2.pagesRequested = [1, 2, 3]
    ∧ (indeedScrape (okOracle stub) baseUrl 10).2.collected = stub 1
    ∧ (naukriScrape (okOracle stub) 10).2.pagesRequested = [1, 2]
    ∧ (naukriScrape (okOracle stub) 10).2.collected = stub 1
    ∧ (pwNaukriScrape (pwStubOracles stub) 10).2.pagesRequested = [1, 2]
    ∧ (pwNaukriScrape (pwStubOracles stub) 10).2.collected = stub 1
    ∧ (pwIndeedScrape (pwStubOracles stub) 10).2.pagesRequested
        = [1, 2, 3, 4, 5, 6, 7, 8, 9, 10]
    ∧ (pwIndeedScrape (pwStubOracles stub) 10).1 = .ok (stub 1) := by
  have hs : ∀ p, 2 ≤ p → stub p = [] := h2
  have hs2 := hs 2 (by omega)
  have hs3 := hs 3 (by omega)
  have hs4 := hs 4 (by omega)
  have hs5 := hs 5 (by omega)
  have hs6 := hs 6 (by omega)
  have hs7 := hs 7 (by omega)
  have hs8 := hs 8 (by omega)
  have hs9 := hs 9 (by omega)
  have hs10 := hs 10 (by omega)
  have hne : ¬(stub 1).length = 0 := by
    simpa [List.length_eq_zero] using h1
  have hemp : (stub 1).isEmpty = false := by
    simp [List.isEmpty_iff, h1]
  have hr10 : List.range 10 = [0, 1, 2, 3, 4, 5, 6, 7, 8, 9] := rfl
  have hr10b : List.range' 1 10 = [1, 2, 3, 4, 5, 6, 7, 8, 9, 10] := rfl
  refine ⟨?_, ?_, ?_, ?_, ?_, ?_, ?_, ?_⟩
  · simp [indeedScrape, indeedPages, okOracle, initHttpRun, hne, hs2, hs3, hr10]
  · simp [indeedScrape, indeedPages, okOracle, initHttpRun, hne, hs2, hs3, hr10]
  · simp [naukriScrape, naukriPages, okOracle, initHttpRun, hne, hs2, hr10b]
  · simp [naukriScrape, naukriPages, okOracle, initHttpRun, hne, hs2, hr10b]
  · simp [pwNaukriScrape, pwNaukriPages, pwStubOracles, pwCleanup, initPwRun, hne, hs2, hr10b]
  · simp [pwNaukriScrape, pwNaukriPages, pwStubOracles, pwCleanup, initPwRun, hne, hs2, hr10b]
  · simp [pwIndeedScrape, pwIndeedPages, pwStubOracles, pwCleanup, initPwRun, hemp,
      hs2, hs3, hs4, hs5, hs6, hs7, hs8, hs9, hs10, hr10]
  · simp [pwIndeedScrape, pwIndeedPages, pwStubOracles, pwCleanup, initPwRun, hemp,
      hs2, hs3, hs4, hs5, hs6, hs7, hs8, hs9, hs10, hr10]

/-- Witness for claim C2's amended statement at the concrete one-page stub. -/
theorem early_stop_per_adapter_witness :
    (stubOnePage 1 ≠ [] ∧ (∀ p, 2 ≤ p → stubOnePage p = []))
      ∧ (indeedScrape (okOracle stubOnePage) "https://in.indeed.com" 10).2.pagesRequested
          = [1, 2, 3]
      ∧ (naukriScrape (okOracle stubOnePage) 10).2.pagesRequested = [1, 2] :=
  have h1 : stubOnePage 1 ≠ [] := by decide
  have h2 : ∀ p, 2 ≤ p → stubOnePage p = [] := by
    intro p hp
    simp only [stubOnePage]
    rw [if_neg]
    omega
  ⟨⟨h1, h2⟩,
    (early_stop_per_adapter stubOnePage "https://in.indeed.com" h1 h2).1,
    (early_stop_per_adapter stubOnePage "https://in.indeed.com" h1 h2).2.2.1⟩

/-! ## Behavior of the runner when the first fetch is blocked -/

/-- Claim C6 counterexample: a run whose first fetch fails with a 403 and
whose later pages are empty, with `continueOnError = false`, does not end
`failed` with one error record — the per-page error is swallowed inside the
scraper's page loop, the run completes, and two error records are pushed for
the one failed fetch. -/
theorem blocked_first_fetch_not_failed :
    ¬((executeJobIndeedHttp stubBlockedFirst "dev" "pune" 5 false).status = "failed"
      ∧ (executeJobIndeedHttp stubBlockedFirst "dev" "pune" 5 false).jobs = []
      ∧ (executeJobIndeedHttp stubBlockedFirst "dev" "pune" 5 false).errors.length = 1) := by
  decide

/-- Claim C6 (amended): for every oracle whose page-1 fetch throws and whose
later pages are empty, and either value of `continueOnError`, the run's
status is `completed` (not `failed`), zero listings are returned, and exactly
two error records are present (one pushed by `fetchPage`, one by the page
loop's `catch`); the `continueOnError` flag does not change the result
record, since the scraper never re-throws a per-page fetch error. -/
theorem blocked_first_fetch_completes (oracle : Nat → Except String (List Job))
    (msg : String) (flag : Bool) (h1 : oracle 1 = .error msg)
    (h2 : ∀ p, 2 ≤ p → oracle p = .ok []) :
    (executeJobIndeedHttp oracle "dev" "pune" 5 flag).status = "completed"
    ∧ (executeJobIndeedHttp oracle "dev" "pune" 5 flag).jobs = []
    ∧ (executeJobIndeedHttp oracle "dev" "pune" 5 flag).errors
        = [⟨"fetch", none, msg⟩, ⟨"page", some 1, msg⟩]
    ∧ executeJobIndeedHttp oracle "dev" "pune" 5 true
        = executeJobIndeedHttp oracle "dev" "pune" 5 false := by
  have hs2 := h2 2 (by omega)
  have hr5 : List.range 5 = [0, 1, 2, 3, 4] := rfl
  refine ⟨?_, ?_, ?_, ?_⟩ <;>
    simp [executeJobIndeedHttp, indeedValidateParams, mkValidationResult, truthy,
      indeedScrape, indeedPages, initHttpRun, processJobs, cleanJobs, removeDuplicates,
      removeDuplicatesAux, filterValidJobs, h1, hs2, hr5]

/-- Witness for claim C6's amended statement at the concrete blocked oracle. -/
theorem blocked_first_fetch_completes_witness :
    (stubBlockedFirst 1 = .error "Request failed with status code 403"
        ∧ (∀ p, 2 ≤ p → stubBlockedFirst p = .ok []))
      ∧ (executeJobIndeedHttp stubBlockedFirst "dev" "pune" 5 false).status = "completed"
      ∧ (executeJobIndeedHttp stubBlockedFirst "dev" "pune" 5 false).errors
          = [⟨"fetch", none, "Request failed with status code 403"⟩,
             ⟨"page", some 1, "Request failed with status code 403"⟩] :=
  have h1 : stubBlockedFirst 1 = .error "Request failed with status code 403" := rfl
  have h2 : ∀ p, 2 ≤ p → stubBlockedFirst p = .ok [] := by
    intro p hp
    simp only [stubBlockedFirst]
    rw [if_neg]
    omega
  ⟨⟨h1, h2⟩,
    (blocked_first_fetch_completes stubBlockedFirst "Request failed with status code 403"
      false h1 h2).1,
    (blocked_first_fetch_completes stubBlockedFirst "Request failed with status code 403"
      false h1 h2).2.2.1⟩

/-! ## Dedup key facts -/

theorem removeDuplicatesAux_keys (d : String) (seen : List String) (l : List Job) :
    (∀ j ∈ removeDuplicatesAux d seen l,
        ∃ k, dedupKey d j = some k ∧ k ≠ "" ∧ k ∉ seen)
    ∧ ((removeDuplicatesAux d seen l).map (dedupKey d)).Nodup := by
  induction l generalizing seen with
  | nil => simp [removeDuplicatesAux]
  | cons j rest ih =>
    simp only [removeDuplicatesAux]
    cases hkey : dedupKey d j with
    | none => exact ih seen
    | some k =>
      by_cases hk : k = "" ∨ k ∈ seen
      · simp only [if_pos hk]
        exact ih seen
      · simp only [if_neg hk]
        push_neg at hk
        obtain ⟨hk1, hk2⟩ := hk
        constructor
        · intro x hx
          rcases List.mem_cons.mp hx with hxj | hxr
          · exact ⟨k, hxj ▸ hkey, hk1, hk2⟩
          · obtain ⟨k2, hkk, hne, hcon⟩ := (ih (k :: seen)).1 x hxr
            refine ⟨k2, hkk, hne, ?_⟩
            intro hmem
            exact hcon (List.mem_cons_of_mem k hmem)
        · simp only [List.map_cons, List.nodup_cons]
          constructor
          · intro hmem
            obtain ⟨x, hxr, hxk⟩ := List.mem_map.mp hmem
            obtain ⟨k2, hkk, hne, hcon⟩ := (ih (k :: seen)).1 x hxr
            rw [hkk, hkey] at hxk
            exact hcon (Option.some.inj hxk ▸ List.mem_cons_self k seen)
          · exact (ih (k :: seen)).2

theorem removeDuplicatesAux_first_occurrence (d : String) (l1 : List Job) :
    ∀ (seen : List String) (j : Job) (l2 : List Job) (k : String),
      dedupKey d j = some k → k ≠ "" → k ∉ seen →
      some k ∉ l1.map (dedupKey d) →
      j ∈ removeDuplicatesAux d seen (l1 ++ j :: l2) := by
  induction l1 with
  | nil =>
    intro seen j l2 k hkey hne hseen _
    simp only [List.nil_append, removeDuplicatesAux, hkey]
    rw [if_neg (by simp [hne, hseen])]
    exact List.mem_cons_self j _
  | cons y l1 ih =>
    intro seen j l2 k hkey hne hseen hnotin
    simp only [List.map_cons, List.mem_cons, not_or] at hnotin
    obtain ⟨hny, hnl1⟩ := hnotin
    simp only [List.cons_append, removeDuplicatesAux]
    cases hykey : dedupKey d y with
    | none => exact ih seen j l2 k hkey hne hseen hnl1
    | some ky =>
      by_cases hky : ky = "" ∨ ky ∈ seen
      · simp only [if_pos hky]
        exact ih seen j l2 k hkey hne hseen hnl1
      · simp only [if_neg hky]
        refine List.mem_cons_of_mem y ?_
        have hkky : k ≠ ky := fun h => hny (by rw [hykey, h])
        have hnotin2 : k ∉ ky :: seen := by
          intro h
          rcases List.mem_cons.mp h with h | h
          · exact hkky h
          · exact hseen h
        exact ih (ky :: seen) j l2 k hkey hne hnotin2 hnl1

/-- Claim C5 counterexample: a fragment with no `jobId` — the configured key —
is dropped by `removeDuplicates` although it is not a later duplicate of
anything (it is the only element). -/
theorem removeDuplicates_drops_missing_key :
    removeDuplicates [noKeyJob] "jobId" = [] ∧ noKeyJob.jobId = none := by
  decide

/-- Claim C5 (amended): for every fragment list and dedup configuration,
`removeDuplicates` returns a subsequence of its input (survivors keep their
original relative order), every survivor has a present, non-empty key, the
survivors' keys are pairwise distinct, and every fragment that carries a
present non-empty key not seen earlier in the list — every first occurrence —
survives.  Beyond dropping later duplicates, the stage also drops every
fragment whose configured key is missing or empty. -/
theorem removeDuplicates_order_and_first_occurrence (jobs : List Job) (d : String) :
    (removeDuplicates jobs d).Sublist jobs
    ∧ (∀ j ∈ removeDuplicates jobs d,
        ∃ k, dedupKey d j = some k ∧ k ≠ "")
    ∧ ((removeDuplicates jobs d).map (dedupKey d)).Nodup
    ∧ (∀ (l1 : List Job) (j : Job) (l2 : List Job) (k : String),
        jobs = l1 ++ j :: l2 → dedupKey d j = some k → k ≠ "" →
        some k ∉ l1.map (dedupKey d) →
        j ∈ removeDuplicates jobs d) := by
  refine ⟨removeDuplicatesAux_sublist d [] jobs, ?_, (removeDuplicatesAux_keys d [] jobs).2, ?_⟩
  · intro j hj
    obtain ⟨k, hk, hne, _⟩ := (removeDuplicatesAux_keys d [] jobs).1 j hj
    exact ⟨k, hk, hne⟩
  · intro l1 j l2 k hsplit hkey hne hnotin
    rw [hsplit]
    exact removeDuplicatesAux_first_occurrence d l1 [] j l2 k hkey hne
      (List.not_mem_nil k) hnotin

/-- Witness for claim C5's amended statement: on a concrete two-fragment list
the first-occurrence clause puts the head fragment in the output. -/
theorem removeDuplicates_order_and_first_occurrence_witness :
    sampleJob ∈ removeDuplicates [sampleJob, otherJob] "jobId" :=
  (removeDuplicates_order_and_first_occurrence [sampleJob, otherJob] "jobId").2.2.2
    [] sampleJob [otherJob] "j1" rfl (by decide) (by decide) (by simp)

/-! ## Idempotence analysis of the pipeline (claim C4) -/

/-- Claim C4 counterexample: the pipeline is not a field-level fixpoint on its
own output.  Removing the parenthetical `(42 reviews)` from
`"Acme (42 reviews) Corp"` leaves the double space `"Acme  Corp"`, which a
second run collapses to `"Acme Corp"`, so the second run changes a surviving
job. -/
theorem processJobs_not_field_idempotent :
    (processJobs (processJobs [parenJob] defaultOptions).jobs defaultOptions).jobs
        ≠ (processJobs [parenJob] defaultOptions).jobs
      ∧ (processJobs [parenJob] defaultOptions).jobs.map Job.company
          = [some "Acme  Corp"]
      ∧ (processJobs (processJobs [parenJob] defaultOptions).jobs
            defaultOptions).jobs.map Job.company
          = [some "Acme Corp"] := by
  decide

theorem headNonWs_dropWhile (l : List Char) : headNonWs (l.dropWhile isWs) := by
  induction l with
  | nil => intro c h; simp at h
  | cons a t ih =>
    by_cases ha : isWs a = true
    · rw [List.dropWhile_cons, if_pos ha]
      exact ih
    · rw [List.dropWhile_cons, if_neg ha]
      intro c h
      simp only [List.head?_cons, Option.some.injEq] at h
      rw [← h]
      exact Bool.eq_false_iff.mpr ha

theorem dropWhile_eq_self_of_headNonWs (l : List Char) (h : headNonWs l) :
    l.dropWhile isWs = l := by
  cases l with
  | nil => rfl
  | cons a t =>
    rw [List.dropWhile_cons, if_neg]
    simp [h a rfl]

theorem tailNonWs_iff (l : List Char) : tailNonWs l ↔ headNonWs l.reverse := by
  unfold tailNonWs headNonWs
  simp only [List.head?_reverse]

theorem headNonWs_trimChars (l : List Char) : headNonWs (trimChars l) := by
  intro c h
  unfold trimChars at h
  rw [List.head?_reverse] at h
  obtain ⟨t, ht⟩ := List.dropWhile_suffix (l := (List.dropWhile isWs l).reverse) isWs
  have h2 : ((List.dropWhile isWs l).reverse).getLast? = some c := by
    rw [← ht, List.getLast?_append, h]
    rfl
  rw [List.getLast?_reverse] at h2
  exact headNonWs_dropWhile l c h2

theorem tailNonWs_trimChars (l : List Char) : tailNonWs (trimChars l) := by
  rw [tailNonWs_iff]
  unfold trimChars
  rw [List.reverse_reverse]
  exact headNonWs_dropWhile _

theorem trimChars_eq_self (l : List Char) (h1 : headNonWs l) (h2 : tailNonWs l) :
    trimChars l = l := by
  unfold trimChars
  rw [dropWhile_eq_self_of_headNonWs l h1,
    dropWhile_eq_self_of_headNonWs l.reverse ((tailNonWs_iff l).mp h2),
    List.reverse_reverse]

theorem headNonWs_collapse_true (l : List Char) : headNonWs (collapseWsAux true l) := by
  induction l with
  | nil => intro c h; simp [collapseWsAux] at h
  | cons a t ih =>
    by_cases ha : isWs a = true
    · simpa [collapseWsAux, ha] using ih
    · intro c h
      simp only [collapseWsAux, ha, if_neg, if_false, Bool.false_eq_true,
        List.head?_cons, Option.some.injEq] at h
      rw [← h]
      exact Bool.eq_false_iff.mpr ha

theorem headNonWs_collapse_false (l : List Char) (h : headNonWs l) :
    headNonWs (collapseWsAux false l) := by
  cases l with
  | nil => intro c hc; simp [collapseWsAux] at hc
  | cons a t =>
    have ha : isWs a = false := h a rfl
    intro c hc
    simp only [collapseWsAux, ha, Bool.false_eq_true, if_false,
      List.head?_cons, Option.some.injEq] at hc
    rw [← hc]
    exact ha

theorem collapse_false_ne_nil (l : List Char) (h : l ≠ []) :
    collapseWsAux false l ≠ [] := by
  cases l with
  | nil => exact absurd rfl h
  | cons a t => by_cases ha : isWs a = true <;> simp [collapseWsAux, ha]

theorem collapse_true_ne_nil (l : List Char) (c : Char) (hc : c ∈ l)
    (hw : isWs c = false) : collapseWsAux true l ≠ [] := by
  induction l with
  | nil => simp at hc
  | cons a t ih =>
    by_cases ha : isWs a = true
    · have hct : c ∈ t := by
        rcases List.mem_cons.mp hc with h | h
        · rw [← h] at ha
          rw [hw] at ha
          exact absurd ha (by simp)
        · exact h
      simpa [collapseWsAux, ha] using ih hct
    · simp [collapseWsAux, ha]

theorem jsCollapsed_collapse (b : Bool) (l : List Char) :
    jsCollapsedB (collapseWsAux b l) = true := by
  induction l generalizing b with
  | nil => cases b <;> rfl
  | cons a t ih =>
    by_cases ha : isWs a = true
    · cases b with
      | true => simpa [collapseWsAux, ha] using ih true
      | false =>
        have hX := ih true
        have hhead := headNonWs_collapse_true t
        simp only [collapseWsAux, ha, if_pos, if_true]
        cases hXl : collapseWsAux true t with
        | nil => decide
        | cons x xs =>
          have hx : isWs x = false := hhead x (by rw [hXl]; rfl)
          rw [hXl] at hX
          have hws : isWs ' ' = true := by decide
          have hXs : jsCollapsedB xs = true := by
            cases xs with
            | nil => rfl
            | cons y ys =>
              have he : jsCollapsedB (x :: y :: ys)
                  = ((if isWs x = true then x == ' ' && !isWs y else true)
                      && jsCollapsedB (y :: ys)) := rfl
              rw [he, if_neg (by simp [hx])] at hX
              simpa using hX
          simp [jsCollapsedB, hws, hx, hXs]
    · have hX := ih false
      simp [collapseWsAux, ha, jsCollapsedB, hX]

theorem collapse_eq_self_of_jsCollapsed (l : List Char) (h : jsCollapsedB l = true) :
    collapseWsAux false l = l := by
  induction l with
  | nil => rfl
  | cons a t ih =>
    by_cases ha : isWs a = true
    · cases t with
      | nil =>
        have ha2 : a = ' ' := by
          simp [jsCollapsedB, ha] at h
          exact h
        simp [collapseWsAux, ha, ha2]
      | cons x xs =>
        have h1 : ((a == ' ' && !isWs x) && jsCollapsedB (x :: xs)) = true := by
          have he : jsCollapsedB (a :: x :: xs)
              = ((if isWs a = true then a == ' ' && !isWs x else true)
                  && jsCollapsedB (x :: xs)) := rfl
          rw [he, if_pos ha] at h
          exact h
        obtain ⟨h2, ht⟩ := Bool.and_eq_true_iff.mp h1
        obtain ⟨ha2, hx⟩ := Bool.and_eq_true_iff.mp h2
        have ha3 : a = ' ' := by simpa using ha2
        have hx2 : isWs x = false := by simpa using hx
        have ihx := ih ht
        have hxcons : collapseWsAux false (x :: xs) = x :: collapseWsAux false xs := by
          simp [collapseWsAux, hx2]
        rw [hxcons] at ihx
        have hxs : collapseWsAux false xs = xs := by
          rw [List.cons.injEq] at ihx
          exact ihx.2
        subst ha3
        have hws : isWs ' ' = true := by decide
        simp [collapseWsAux, hws, hx2, hxs]
    · have ht : jsCollapsedB t = true := by
        simpa [jsCollapsedB, ha] using h
      simp [collapseWsAux, ha, ih ht]

theorem getLast?_cons_of_ne_nil (a : Char) (t : List Char) (h : t ≠ []) :
    (a :: t).getLast? = t.getLast? := by
  cases t with
  | nil => exact absurd rfl h
  | cons x xs => simp [List.getLast?_cons_cons]

theorem tailNonWs_collapse (b : Bool) (l : List Char) (h : tailNonWs l) :
    tailNonWs (collapseWsAux b l) := by
  induction l generalizing b with
  | nil =>
    intro c hc
    cases b <;> simp [collapseWsAux] at hc
  | cons a t ih =>
    cases t with
    | nil =>
      have ha : isWs a = false := h a rfl
      intro c hc
      have hout : collapseWsAux b [a] = [a] := by
        cases b with
        | true =>
          have he : collapseWsAux true [a]
              = if isWs a = true then collapseWsAux true []
                else a :: collapseWsAux false [] := rfl
          rw [he, if_neg (by simp [ha])]
          try rfl
        | false =>
          have he : collapseWsAux false [a]
              = if isWs a = true then ' ' :: collapseWsAux true []
                else a :: collapseWsAux false [] := rfl
          rw [he, if_neg (by simp [ha])]
          try rfl
      rw [hout] at hc
      have hac : a = c := by simpa [List.getLast?] using hc
      rw [← hac]
      exact ha
    | cons x xs =>
      have ht : tailNonWs (x :: xs) := by
        intro c hc
        exact h c (by rw [getLast?_cons_of_ne_nil a (x :: xs) (by simp)]; exact hc)
      by_cases ha : isWs a = true
      · cases b with
        | true =>
          have hout : collapseWsAux true (a :: x :: xs)
              = collapseWsAux true (x :: xs) := by
            have he : collapseWsAux true (a :: x :: xs)
                = if isWs a = true then collapseWsAux true (x :: xs)
                  else a :: collapseWsAux false (x :: xs) := rfl
            rw [he, if_pos ha]
          intro c hc
          rw [hout] at hc
          exact (ih true ht) c hc
        | false =>
          have hne : collapseWsAux true (x :: xs) ≠ [] := by
            have hx0 : (x :: xs) ≠ [] := by simp
            have hc0 : (x :: xs).getLast? = some ((x :: xs).getLast hx0) :=
              List.getLast?_eq_getLast _ _
            exact collapse_true_ne_nil (x :: xs) _ (List.getLast_mem hx0)
              (ht _ hc0)
          have hout : collapseWsAux false (a :: x :: xs)
              = ' ' :: collapseWsAux true (x :: xs) := by
            have he : collapseWsAux false (a :: x :: xs)
                = if isWs a = true then ' ' :: collapseWsAux true (x :: xs)
                  else a :: collapseWsAux false (x :: xs) := rfl
            rw [he, if_pos ha]
          intro c hc
          rw [hout, getLast?_cons_of_ne_nil ' ' _ hne] at hc
          exact (ih true ht) c hc
      · have hne : collapseWsAux false (x :: xs) ≠ [] :=
          collapse_false_ne_nil (x :: xs) (by simp)
        have hout : collapseWsAux b (a :: x :: xs)
            = a :: collapseWsAux false (x :: xs) := by
          cases b with
          | true =>
            have he : collapseWsAux true (a :: x :: xs)
                = if isWs a = true then collapseWsAux true (x :: xs)
                  else a :: collapseWsAux false (x :: xs) := rfl
            rw [he, if_neg ha]
          | false =>
            have he : collapseWsAux false (a :: x :: xs)
                = if isWs a = true then ' ' :: collapseWsAux true (x :: xs)
                  else a :: collapseWsAux false (x :: xs) := rfl
            rw [he, if_neg ha]
        intro c hc
        rw [hout, getLast?_cons_of_ne_nil a _ hne] at hc
        exact (ih false ht) c hc

theorem cleanChars_trim_fixed (l : List Char) :
    trimChars (collapseWs (trimChars l)) = collapseWs (trimChars l) :=
  trimChars_eq_self _ (headNonWs_collapse_false _ (headNonWs_trimChars l))
    (tailNonWs_collapse false _ (tailNonWs_trimChars l))

theorem cleanChars_collapse_fixed (l : List Char) :
    collapseWs (collapseWs (trimChars l)) = collapseWs (trimChars l) :=
  collapse_eq_self_of_jsCollapsed _ (jsCollapsed_collapse false _)

theorem stringMk_eq_empty_iff (l : List Char) : String.mk l = "" ↔ l = [] := by
  constructor
  · intro h
    have h2 := congrArg String.toList h
    simpa using h2
  · intro h
    rw [h]

theorem normalizeString_some_eq (s : String) :
    normalizeString (some s)
      = if s = "" then none
        else if collapseWs (trimChars s.toList) = [] then none
        else some (String.mk (collapseWs (trimChars s.toList))) := rfl

theorem normalizeString_idem (v : Option String) :
    normalizeString (normalizeString v) = normalizeString v := by
  cases v with
  | none => rfl
  | some s =>
    by_cases hs : s = ""
    · rw [normalizeString_some_eq s, if_pos hs]
      rfl
    · by_cases ht : collapseWs (trimChars s.toList) = []
      · rw [normalizeString_some_eq s, if_neg hs, if_pos ht]
        rfl
      · have hinner : normalizeString (some s)
            = some (String.mk (collapseWs (trimChars s.toList))) := by
          rw [normalizeString_some_eq s, if_neg hs, if_neg ht]
        rw [hinner, normalizeString_some_eq,
          if_neg (fun h => ht ((stringMk_eq_empty_iff _).mp h))]
        have htl : (String.mk (collapseWs (trimChars s.toList))).toList
            = collapseWs (trimChars s.toList) := rfl
        rw [htl, cleanChars_trim_fixed, cleanChars_collapse_fixed]
        rw [if_neg ht]

theorem contains_eq_false_iff (l : List Char) (c : Char) :
    l.contains c = false ↔ c ∉ l := by
  constructor
  · intro h hmem
    rw [show l.contains c = l.elem c from rfl] at h
    rw [List.elem_eq_true_of_mem hmem] at h
    exact absurd h (by simp)
  · intro h
    cases hc : l.contains c with
    | false => rfl
    | true => exact absurd (List.mem_of_elem_eq_true hc) h

theorem splitAtClose_eq_none (l : List Char) :
    splitAtClose l = none ↔ ')' ∉ l := by
  induction l with
  | nil => simp [splitAtClose]
  | cons a t ih =>
    by_cases ha : a = ')'
    · rw [ha]
      simp [splitAtClose]
    · have he : splitAtClose (a :: t) = splitAtClose t := by
        simp [splitAtClose, ha]
      rw [he, ih]
      constructor
      · intro hn
        simp only [List.mem_cons, not_or]
        exact ⟨fun h => ha h.symm, hn⟩
      · intro hn
        simp only [List.mem_cons, not_or] at hn
        exact hn.2

theorem splitAtClose_sublist (l r : List Char) (h : splitAtClose l = some r) :
    r.Sublist l := by
  induction l generalizing r with
  | nil => simp [splitAtClose] at h
  | cons a t ih =>
    by_cases ha : a = ')'
    · rw [ha] at h ⊢
      have he : splitAtClose (')' :: t) = some t := by simp [splitAtClose]
      rw [he] at h
      rw [← Option.some.inj h]
      exact (List.Sublist.refl t).cons ')'
    · have he : splitAtClose (a :: t) = splitAtClose t := by
        simp [splitAtClose, ha]
      rw [he] at h
      exact (ih r h).cons a

theorem splitAtClose_length (l r : List Char) (h : splitAtClose l = some r) :
    r.length < l.length := by
  induction l generalizing r with
  | nil => simp [splitAtClose] at h
  | cons a t ih =>
    by_cases ha : a = ')'
    · rw [ha] at h
      have he : splitAtClose (')' :: t) = some t := by simp [splitAtClose]
      rw [he] at h
      rw [← Option.some.inj h]
      simp
    · have he : splitAtClose (a :: t) = splitAtClose t := by
        simp [splitAtClose, ha]
      rw [he] at h
      exact Nat.lt_trans (ih r h) (by simp)

theorem removeParensF_fuel_eq (f1 : Nat) : ∀ (f2 : Nat) (l : List Char),
    l.length ≤ f1 → l.length ≤ f2 → removeParensF f1 l = removeParensF f2 l := by
  induction f1 with
  | zero =>
    intro f2 l h1 _
    have hl : l = [] := by
      cases l with
      | nil => rfl
      | cons a t => simp at h1
    rw [hl]
    cases f2 <;> rfl
  | succ n ih =>
    intro f2 l h1 h2
    cases l with
    | nil => cases f2 <;> rfl
    | cons c rest =>
      cases f2 with
      | zero => simp at h2
      | succ m =>
        simp only [removeParensF]
        simp only [List.length_cons, Nat.succ_le_succ_iff] at h1 h2
        by_cases hc : c = '('
        · rw [if_pos hc, if_pos hc]
          cases hs : splitAtClose rest with
          | some r =>
            have hr := splitAtClose_length rest r hs
            exact ih m r (by omega) (by omega)
          | none =>
            rw [ih m rest h1 h2]
        · rw [if_neg hc, if_neg hc, ih m rest h1 h2]

theorem removeParens_cons_ne (c : Char) (rest : List Char) (hc : c ≠ '(') :
    removeParens (c :: rest) = c :: removeParens rest := by
  unfold removeParens
  simp only [List.length_cons, removeParensF, if_neg hc]

theorem removeParens_cons_open_some (rest r : List Char)
    (hs : splitAtClose rest = some r) :
    removeParens ('(' :: rest) = removeParens r := by
  unfold removeParens
  simp only [List.length_cons, removeParensF, hs, if_true, eq_self_iff_true]
  exact removeParensF_fuel_eq rest.length r.length r
    (Nat.le_of_lt (splitAtClose_length rest r hs)) (Nat.le_refl _)

theorem removeParens_cons_open_none (rest : List Char)
    (hs : splitAtClose rest = none) :
    removeParens ('(' :: rest) = '(' :: removeParens rest := by
  unfold removeParens
  simp [List.length_cons, removeParensF, hs]

theorem removeParensF_sublist (f : Nat) (l : List Char) :
    (removeParensF f l).Sublist l := by
  induction f generalizing l with
  | zero => exact List.Sublist.refl l
  | succ n ih =>
    cases l with
    | nil => exact List.Sublist.refl []
    | cons c rest =>
      simp only [removeParensF]
      by_cases hc : c = '('
      · rw [if_pos hc]
        cases hs : splitAtClose rest with
        | some r => exact ((ih r).trans (splitAtClose_sublist rest r hs)).cons c
        | none => exact (ih rest).cons₂ c
      · rw [if_neg hc]
        exact (ih rest).cons₂ c

theorem removeParens_sublist (l : List Char) : (removeParens l).Sublist l :=
  removeParensF_sublist l.length l

theorem trimChars_sublist (l : List Char) : (trimChars l).Sublist l := by
  unfold trimChars
  have h1 : (List.dropWhile isWs l).Sublist l := List.dropWhile_sublist isWs
  have h2 : (List.dropWhile isWs (List.dropWhile isWs l).reverse).Sublist
      (List.dropWhile isWs l).reverse := List.dropWhile_sublist isWs
  have h3 := h2.reverse
  rw [List.reverse_reverse] at h3
  exact h3.trans h1

theorem hasPair_iff_sublist (l : List Char) :
    hasPair l = true ↔ ['(', ')'].Sublist l := by
  induction l with
  | nil => simp [hasPair]
  | cons a t ih =>
    simp only [hasPair, Bool.or_eq_true, Bool.and_eq_true, beq_iff_eq]
    constructor
    · rintro (⟨ha, hc⟩ | hp)
      · rw [ha]
        exact (List.singleton_sublist.mpr (by simpa using hc)).cons₂ '('
      · exact (ih.mp hp).cons a
    · intro hsub
      cases hsub with
      | cons _ hsub2 => exact Or.inr (ih.mpr hsub2)
      | cons₂ _ hsub2 =>
        exact Or.inl ⟨rfl, by simpa using List.singleton_sublist.mp hsub2⟩

theorem hasPair_false_of_sublist (l1 l2 : List Char) (h : l1.Sublist l2)
    (h2 : hasPair l2 = false) : hasPair l1 = false := by
  cases hp : hasPair l1 with
  | false => rfl
  | true =>
    have := (hasPair_iff_sublist l1).mp hp
    rw [(hasPair_iff_sublist l2).mpr (this.trans h)] at h2
    exact absurd h2 (by simp)

theorem hasPair_removeParensF (f : Nat) (l : List Char) (hf : l.length ≤ f) :
    hasPair (removeParensF f l) = false := by
  induction f generalizing l with
  | zero =>
    have hl : l = [] := by
      cases l with
      | nil => rfl
      | cons a t => simp at hf
    rw [hl]
    rfl
  | succ n ih =>
    cases l with
    | nil => rfl
    | cons c rest =>
      simp only [List.length_cons, Nat.succ_le_succ_iff] at hf
      simp only [removeParensF]
      by_cases hc : c = '('
      · rw [if_pos hc]
        cases hs : splitAtClose rest with
        | some r =>
          exact ih r (Nat.le_trans (Nat.le_of_lt (splitAtClose_length rest r hs)) hf)
        | none =>
          have hnr : ')' ∉ rest := (splitAtClose_eq_none rest).mp hs
          have hnx : ')' ∉ removeParensF n rest := fun hmem =>
            hnr ((removeParensF_sublist n rest).subset hmem)
          have hcont : (removeParensF n rest).contains ')' = false :=
            (contains_eq_false_iff _ _).mpr hnx
          simp only [hasPair, hcont, ih rest hf, Bool.and_false, Bool.or_false]
      · rw [if_neg hc]
        have hcb : (c == '(') = false := by
          cases hcc : c == '(' with
          | false => rfl
          | true => exact absurd (by simpa using hcc) hc
        simp only [hasPair, hcb, ih rest hf, Bool.false_and, Bool.or_false]

theorem hasPair_removeParens (l : List Char) : hasPair (removeParens l) = false :=
  hasPair_removeParensF l.length l (Nat.le_refl _)

theorem removeParensF_eq_self (f : Nat) (l : List Char) (hf : l.length ≤ f)
    (h : hasPair l = false) : removeParensF f l = l := by
  induction f generalizing l with
  | zero =>
    cases l with
    | nil => rfl
    | cons a t => simp at hf
  | succ n ih =>
    cases l with
    | nil => rfl
    | cons c rest =>
      simp only [List.length_cons, Nat.succ_le_succ_iff] at hf
      simp only [hasPair, Bool.or_eq_false_iff, Bool.and_eq_false_iff] at h
      obtain ⟨h1, h2⟩ := h
      simp only [removeParensF]
      by_cases hc : c = '('
      · rw [if_pos hc]
        have hcontf : rest.contains ')' = false := by
          rcases h1 with h1 | h1
          · rw [hc] at h1
            simp at h1
          · exact h1
        have hs : splitAtClose rest = none :=
          (splitAtClose_eq_none rest).mpr ((contains_eq_false_iff _ _).mp hcontf)
        rw [hs, ih rest hf h2]
      · rw [if_neg hc, ih rest hf h2]

theorem removeParens_eq_self (l : List Char) (h : hasPair l = false) :
    removeParens l = l :=
  removeParensF_eq_self l.length l (Nat.le_refl _) h

theorem contains_close_collapse (b : Bool) (l : List Char) :
    (collapseWsAux b l).contains ')' = l.contains ')' := by
  induction l generalizing b with
  | nil => cases b <;> rfl
  | cons a t ih =>
    have hpar : isWs ')' = false := by decide
    by_cases ha : isWs a = true
    · have hna : (')' == a) = false := by
        cases hq : ')' == a with
        | false => rfl
        | true =>
          have : ')' = a := by simpa using hq
          rw [← this] at ha
          rw [hpar] at ha
          exact absurd ha (by simp)
      cases b with
      | true =>
        have he : collapseWsAux true (a :: t) = collapseWsAux true t := by
          have h0 : collapseWsAux true (a :: t)
              = if isWs a = true then collapseWsAux true t
                else a :: collapseWsAux false t := rfl
          rw [h0, if_pos ha]
        rw [he, ih true, List.contains_cons, hna, Bool.false_or]
      | false =>
        have he : collapseWsAux false (a :: t) = ' ' :: collapseWsAux true t := by
          have h0 : collapseWsAux false (a :: t)
              = if isWs a = true then ' ' :: collapseWsAux true t
                else a :: collapseWsAux false t := rfl
          rw [h0, if_pos ha]
        have hsp : (')' == ' ') = false := by decide
        rw [he, List.contains_cons, hsp, Bool.false_or, ih true,
          List.contains_cons, hna, Bool.false_or]
    · have he : collapseWsAux b (a :: t) = a :: collapseWsAux false t := by
        cases b with
        | true =>
          have h0 : collapseWsAux true (a :: t)
              = if isWs a = true then collapseWsAux true t
                else a :: collapseWsAux false t := rfl
          rw [h0, if_neg ha]
        | false =>
          have h0 : collapseWsAux false (a :: t)
              = if isWs a = true then ' ' :: collapseWsAux true t
                else a :: collapseWsAux false t := rfl
          rw [h0, if_neg ha]
      rw [he, List.contains_cons, List.contains_cons, ih false]

theorem hasPair_collapse (b : Bool) (l : List Char) :
    hasPair (collapseWsAux b l) = hasPair l := by
  induction l generalizing b with
  | nil => cases b <;> rfl
  | cons a t ih =>
    by_cases ha : isWs a = true
    · have hopen : (a == '(') = false := by
        cases hq : a == '(' with
        | false => rfl
        | true =>
          have hq2 : a = '(' := by simpa using hq
          rw [hq2] at ha
          exact absurd ha (by decide)
      cases b with
      | true =>
        have he : collapseWsAux true (a :: t) = collapseWsAux true t := by
          have h0 : collapseWsAux true (a :: t)
              = if isWs a = true then collapseWsAux true t
                else a :: collapseWsAux false t := rfl
          rw [h0, if_pos ha]
        rw [he, ih true]
        have h1 : hasPair (a :: t) = ((a == '(' && t.contains ')') || hasPair t) := rfl
        rw [h1, hopen, Bool.false_and, Bool.false_or]
      | false =>
        have he : collapseWsAux false (a :: t) = ' ' :: collapseWsAux true t := by
          have h0 : collapseWsAux false (a :: t)
              = if isWs a = true then ' ' :: collapseWsAux true t
                else a :: collapseWsAux false t := rfl
          rw [h0, if_pos ha]
        have hspo : (' ' == '(') = false := by decide
        rw [he]
        have h1 : hasPair (' ' :: collapseWsAux true t)
            = ((' ' == '(' && (collapseWsAux true t).contains ')')
                || hasPair (collapseWsAux true t)) := rfl
        have h2 : hasPair (a :: t) = ((a == '(' && t.contains ')') || hasPair t) := rfl
        rw [h1, h2, hspo, hopen, Bool.false_and, Bool.false_and, Bool.false_or,
          Bool.false_or, ih true]
    · have he : collapseWsAux b (a :: t) = a :: collapseWsAux false t := by
        cases b with
        | true =>
          have h0 : collapseWsAux true (a :: t)
              = if isWs a = true then collapseWsAux true t
                else a :: collapseWsAux false t := rfl
          rw [h0, if_neg ha]
        | false =>
          have h0 : collapseWsAux false (a :: t)
              = if isWs a = true then ' ' :: collapseWsAux true t
                else a :: collapseWsAux false t := rfl
          rw [h0, if_neg ha]
      rw [he]
      have h1 : hasPair (a :: collapseWsAux false t)
          = ((a == '(' && (collapseWsAux false t).contains ')')
              || hasPair (collapseWsAux false t)) := rfl
      have h2 : hasPair (a :: t) = ((a == '(' && t.contains ')') || hasPair t) := rfl
      rw [h1, h2, ih false, contains_close_collapse false t]

theorem normalizeCompanyName_some_eq (s : String) :
    normalizeCompanyName (some s)
      = if s = "" then none
        else
          match normalizeString (some s) with
          | none => none
          | some u =>
            if trimChars (removeParens u.toList) = [] then none
            else some (String.mk (trimChars (removeParens u.toList))) := rfl

theorem normalizeCompanyName_eval (s u : String) (hs : ¬s = "")
    (hns : normalizeString (some s) = some u) :
    normalizeCompanyName (some s)
      = if trimChars (removeParens u.toList) = [] then none
        else some (String.mk (trimChars (removeParens u.toList))) := by
  rw [normalizeCompanyName_some_eq s, if_neg hs, hns]

theorem truthy_some_of_ne (x : String) (h : x ≠ "") : truthy (some x) = true := by
  simp [truthy, h]

theorem normalizeCompanyName_truthy_idem (v : Option String) :
    truthy (normalizeCompanyName (normalizeCompanyName v))
      = truthy (normalizeCompanyName v) := by
  cases v with
  | none => rfl
  | some s =>
    by_cases hs : s = ""
    · have h0 : normalizeCompanyName (some s) = none := by
        rw [normalizeCompanyName_some_eq s, if_pos hs]
      rw [h0]
      rfl
    · by_cases hn : collapseWs (trimChars s.toList) = []
      · have hns : normalizeString (some s) = none := by
          rw [normalizeString_some_eq s, if_neg hs, if_pos hn]
        have h0 : normalizeCompanyName (some s) = none := by
          rw [normalizeCompanyName_some_eq s, if_neg hs, hns]
        rw [h0]
        rfl
      · have hns : normalizeString (some s)
            = some (String.mk (collapseWs (trimChars s.toList))) := by
          rw [normalizeString_some_eq s, if_neg hs, if_neg hn]
        have heval := normalizeCompanyName_eval s _ hs hns
        have htl0 : (String.mk (collapseWs (trimChars s.toList))).toList
            = collapseWs (trimChars s.toList) := rfl
        rw [htl0] at heval
        by_cases hw : trimChars (removeParens (collapseWs (trimChars s.toList))) = []
        · have h0 : normalizeCompanyName (some s) = none := by
            rw [heval, if_pos hw]
          rw [h0]
          rfl
        · have h0 : normalizeCompanyName (some s)
              = some (String.mk
                  (trimChars (removeParens (collapseWs (trimChars s.toList))))) := by
            rw [heval, if_neg hw]
          set w := trimChars (removeParens (collapseWs (trimChars s.toList))) with hWdef
          have hwh : headNonWs w := headNonWs_trimChars _
          have hwt : tailNonWs w := tailNonWs_trimChars _
          have hwtrim : trimChars w = w := trimChars_eq_self w hwh hwt
          have hwcne : collapseWs w ≠ [] := collapse_false_ne_nil w hw
          have hwpair : hasPair w = false :=
            hasPair_false_of_sublist w _ (trimChars_sublist _)
              (hasPair_removeParens _)
          have hwcpair : hasPair (collapseWs w) = false := by
            rw [show collapseWs w = collapseWsAux false w from rfl,
              hasPair_collapse false w]
            exact hwpair
          have hmkne : ¬String.mk w = "" := fun h =>
            hw ((stringMk_eq_empty_iff w).mp h)
          have hns2 : normalizeString (some (String.mk w))
              = some (String.mk (collapseWs w)) := by
            rw [normalizeString_some_eq, if_neg hmkne]
            have htl : (String.mk w).toList = w := rfl
            rw [htl, hwtrim, if_neg hwcne]
          have heval2 := normalizeCompanyName_eval (String.mk w) _ hmkne hns2
          have htl2 : (String.mk (collapseWs w)).toList = collapseWs w := rfl
          rw [htl2] at heval2
          have hrp : removeParens (collapseWs w) = collapseWs w :=
            removeParens_eq_self _ hwcpair
          rw [hrp] at heval2
          have hct : trimChars (collapseWs w) = collapseWs w :=
            trimChars_eq_self _ (headNonWs_collapse_false w hwh)
              (tailNonWs_collapse false w hwt)
          rw [hct, if_neg hwcne] at heval2
          rw [h0, heval2]
          rw [truthy_some_of_ne _ (fun h => hwcne ((stringMk_eq_empty_iff _).mp h)),
            truthy_some_of_ne _ hmkne]

theorem leadsWith_append (p l : List Char) : leadsWith p (p ++ l) = true := by
  induction p with
  | nil => rfl
  | cons c cs ih => simp [leadsWith, ih]

theorem parseHttpBase_pre (b : String) (pre host path : List Char)
    (h : parseHttpBase b = some (pre, host, path)) :
    pre = httpsSchemeChars ∨ pre = httpSchemeChars := by
  unfold parseHttpBase at h
  by_cases h1 : leadsWith httpsSchemeChars b.toList = true
  · rw [if_pos h1] at h
    by_cases h2 : (b.toList.drop 8).takeWhile (fun c => !(c == '/')) = []
    · rw [if_pos h2] at h
      exact absurd h (by simp)
    · rw [if_neg h2] at h
      simp only [Option.some.injEq, Prod.mk.injEq] at h
      exact Or.inl h.1.symm
  · rw [if_neg h1] at h
    by_cases h1b : leadsWith httpSchemeChars b.toList = true
    · rw [if_pos h1b] at h
      by_cases h2 : (b.toList.drop 7).takeWhile (fun c => !(c == '/')) = []
      · rw [if_pos h2] at h
        exact absurd h (by simp)
      · rw [if_neg h2] at h
        simp only [Option.some.injEq, Prod.mk.injEq] at h
        exact Or.inr h.1.symm
    · rw [if_neg h1b] at h
      exact absurd h (by simp)

theorem newUrlResolve_eq (u b : String) (pre host path : List Char)
    (hp : parseHttpBase b = some (pre, host, path)) :
    newUrlResolve u b
      = match u.toList with
        | '/' :: '/' :: rest =>
          if rest.takeWhile (fun c => !(c == '/')) = [] then none
          else some (String.mk (pre ++ rest))
        | '/' :: rest => some (String.mk (pre ++ (host ++ '/' :: rest)))
        | [] => some (String.mk (pre ++ (host ++ (if path = [] then ['/'] else path))))
        | u2 =>
          if (u2.takeWhile (fun c => !(c == '/'))).contains ':' then none
          else some (String.mk (pre ++ (host ++ (dirOf path ++ u2)))) := by
  unfold newUrlResolve
  rw [hp]

theorem newUrlResolve_shape (u b s : String) (h : newUrlResolve u b = some s) :
    ∃ pre x, (pre = httpsSchemeChars ∨ pre = httpSchemeChars)
      ∧ s = String.mk (pre ++ x) := by
  cases hp : parseHttpBase b with
  | none =>
    unfold newUrlResolve at h
    rw [hp] at h
    exact absurd h (by simp)
  | some trip =>
    obtain ⟨pre, host, path⟩ := trip
    have hpre := parseHttpBase_pre b pre host path hp
    rw [newUrlResolve_eq u b pre host path hp] at h
    split at h
    · split at h
      · exact absurd h (by simp)
      · exact ⟨pre, _, hpre, (Option.some.inj h).symm⟩
    · exact ⟨pre, _, hpre, (Option.some.inj h).symm⟩
    · exact ⟨pre, _, hpre, (Option.some.inj h).symm⟩
    · split at h
      · exact absurd h (by simp)
      · exact ⟨pre, _, hpre, (Option.some.inj h).symm⟩

theorem startsHttp_mk_append (pre x : List Char)
    (hpre : pre = httpsSchemeChars ∨ pre = httpSchemeChars) :
    startsHttp (String.mk (pre ++ x)) = true := by
  have htl : (String.mk (pre ++ x)).toList = pre ++ x := rfl
  unfold startsHttp
  rw [htl]
  rcases hpre with hpre | hpre <;> rw [hpre]
  · rw [leadsWith_append httpsSchemeChars x]
    simp
  · rw [leadsWith_append httpSchemeChars x]
    simp

theorem mk_append_ne_empty (pre x : List Char)
    (hpre : pre = httpsSchemeChars ∨ pre = httpSchemeChars) :
    ¬String.mk (pre ++ x) = "" := by
  intro h
  have h2 := (stringMk_eq_empty_iff _).mp h
  rcases hpre with hpre | hpre <;> rw [hpre] at h2 <;> simp [httpsSchemeChars, httpSchemeChars] at h2

theorem absoluteUrl_some_eq (u b : String) :
    absoluteUrl (some u) b
      = if u = "" then none
        else if startsHttp u = true then some u
        else newUrlResolve u b := rfl

theorem absoluteUrl_idem (v : Option String) (b : String) :
    absoluteUrl (absoluteUrl v b) b = absoluteUrl v b := by
  cases v with
  | none => rfl
  | some u =>
    by_cases hu : u = ""
    · rw [absoluteUrl_some_eq u b, if_pos hu]
      rfl
    · rw [absoluteUrl_some_eq u b, if_neg hu]
      by_cases hsh : startsHttp u = true
      · rw [if_pos hsh, absoluteUrl_some_eq u b, if_neg hu, if_pos hsh]
      · rw [if_neg hsh]
        cases hr : newUrlResolve u b with
        | none => rfl
        | some s =>
          obtain ⟨pre, x, hpre, hshape⟩ := newUrlResolve_shape u b s hr
          rw [hshape, absoluteUrl_some_eq, if_neg (mk_append_ne_empty pre x hpre),
            if_pos (startsHttp_mk_append pre x hpre)]

theorem cleanJob_jobId_stable (opts : ProcessOptions) (j : Job) :
    (cleanJob opts (cleanJob opts j)).jobId = (cleanJob opts j).jobId := by
  simp only [cleanJob]
  exact normalizeString_idem j.jobId

theorem cleanJob_title_stable (opts : ProcessOptions) (j : Job) :
    (cleanJob opts (cleanJob opts j)).title = (cleanJob opts j).title := by
  simp only [cleanJob]
  exact normalizeString_idem j.title

theorem cleanJob_jobUrl_stable (opts : ProcessOptions) (j : Job) :
    (cleanJob opts (cleanJob opts j)).jobUrl = (cleanJob opts j).jobUrl := by
  simp only [cleanJob]
  exact absoluteUrl_idem j.jobUrl opts.baseUrl

theorem cleanJob_key_stable (opts : ProcessOptions) (d : String) (j : Job) :
    dedupKey d (cleanJob opts (cleanJob opts j)) = dedupKey d (cleanJob opts j) := by
  unfold dedupKey
  rw [cleanJob_jobId_stable, cleanJob_jobUrl_stable]

theorem cleanJob_valid_stable (opts : ProcessOptions) (j : Job) :
    validJob (cleanJob opts (cleanJob opts j)) = validJob (cleanJob opts j) := by
  unfold validJob
  rw [cleanJob_jobId_stable, cleanJob_jobUrl_stable, cleanJob_title_stable]
  have hco : truthy (cleanJob opts (cleanJob opts j)).company
      = truthy (cleanJob opts j).company := by
    simp only [cleanJob]
    exact normalizeCompanyName_truthy_idem j.company
  rw [hco]

theorem removeDuplicatesAux_eq_self (d : String) (seen : List String)
    (l : List Job)
    (h1 : ∀ j ∈ l, ∃ k, dedupKey d j = some k ∧ k ≠ "" ∧ k ∉ seen)
    (h2 : (l.map (dedupKey d)).Nodup) :
    removeDuplicatesAux d seen l = l := by
  induction l generalizing seen with
  | nil => rfl
  | cons j rest ih =>
    obtain ⟨k, hk, hne, hnseen⟩ := h1 j (List.mem_cons_self j rest)
    simp only [removeDuplicatesAux, hk]
    rw [if_neg (by push_neg; exact ⟨hne, hnseen⟩)]
    simp only [List.map_cons, List.nodup_cons] at h2
    obtain ⟨hknotin, h2r⟩ := h2
    congr 1
    apply ih
    · intro x hx
      obtain ⟨k2, hk2, hne2, hns2⟩ := h1 x (List.mem_cons_of_mem j hx)
      refine ⟨k2, hk2, hne2, ?_⟩
      intro hmem
      rcases List.mem_cons.mp hmem with hkk | hkk
      · rw [hkk] at hk2
        exact hknotin (hk ▸ List.mem_map.mpr ⟨x, hx, hk2⟩)
      · exact hns2 hkk
    · exact h2r

theorem processJobs_second_core (opts : ProcessOptions) (L : List Job)
    (hLimage : ∀ j ∈ L, ∃ j0, j = cleanJob opts j0)
    (hLkeys : ∀ j ∈ L, ∃ k, dedupKey opts.dedupeBy j = some k ∧ k ≠ "")
    (hLnodup : (L.map (dedupKey opts.dedupeBy)).Nodup)
    (hLvalid : opts.removeInvalid = true → ∀ j ∈ L, validJob j = true) :
    (processJobs L opts).stats.duplicates = 0
    ∧ (processJobs L opts).stats.invalid = 0
    ∧ (processJobs L opts).stats.final = L.length := by
  have hkeymap : (cleanJobs opts L).map (dedupKey opts.dedupeBy)
      = L.map (dedupKey opts.dedupeBy) := by
    unfold cleanJobs
    rw [List.map_map]
    apply List.map_congr_left
    intro j hj
    obtain ⟨j0, hj0⟩ := hLimage j hj
    show dedupKey opts.dedupeBy (cleanJob opts j) = dedupKey opts.dedupeBy j
    rw [hj0]
    exact cleanJob_key_stable opts opts.dedupeBy j0
  have hdedup2 : removeDuplicates (cleanJobs opts L) opts.dedupeBy
      = cleanJobs opts L := by
    apply removeDuplicatesAux_eq_self
    · intro x hx
      obtain ⟨j, hj, hjx⟩ := List.mem_map.mp hx
      obtain ⟨j0, hj0⟩ := hLimage j hj
      obtain ⟨k, hk, hne⟩ := hLkeys j hj
      refine ⟨k, ?_, hne, List.not_mem_nil k⟩
      rw [← hjx]
      show dedupKey opts.dedupeBy (cleanJob opts j) = some k
      rw [hj0, cleanJob_key_stable opts opts.dedupeBy j0, ← hj0]
      exact hk
    · rw [hkeymap]
      exact hLnodup
  have hlen : (cleanJobs opts L).length = L.length := by
    unfold cleanJobs
    exact List.length_map L (cleanJob opts)
  by_cases hri : opts.removeInvalid = true
  · have hfilter2 : filterValidJobs (cleanJobs opts L) = cleanJobs opts L := by
      unfold filterValidJobs
      rw [List.filter_eq_self]
      intro x hx
      obtain ⟨j, hj, hjx⟩ := List.mem_map.mp hx
      obtain ⟨j0, hj0⟩ := hLimage j hj
      rw [← hjx]
      show validJob (cleanJob opts j) = true
      rw [hj0, cleanJob_valid_stable opts j0, ← hj0]
      exact hLvalid hri j hj
    simp only [processJobs, hdedup2, hri, if_true, hfilter2]
    refine ⟨Nat.sub_self _, Nat.sub_self _, hlen⟩
  · simp only [processJobs, hdedup2, hri, if_false, Bool.false_eq_true]
    refine ⟨Nat.sub_self _, trivial, hlen⟩

/-- Claim C4 (amended): running `processJobs` on its own output (with the same
configuration) removes nothing — the second run reports zero duplicates
removed, zero invalid removed, and the same final count — even though, per
the counterexample, individual string fields are not a fixpoint. -/
theorem processJobs_second_run_drops_nothing (jobs : List Job)
    (opts : ProcessOptions) :
    (processJobs (processJobs jobs opts).jobs opts).stats.duplicates = 0
    ∧ (processJobs (processJobs jobs opts).jobs opts).stats.invalid = 0
    ∧ (processJobs (processJobs jobs opts).jobs opts).stats.final
        = (processJobs jobs opts).stats.final := by
  have hjobs : (processJobs jobs opts).jobs
      = (if opts.removeInvalid = true then
          filterValidJobs (removeDuplicates (cleanJobs opts jobs) opts.dedupeBy)
        else removeDuplicates (cleanJobs opts jobs) opts.dedupeBy) := rfl
  have hLsub : (processJobs jobs opts).jobs.Sublist
      (removeDuplicates (cleanJobs opts jobs) opts.dedupeBy) := by
    rw [hjobs]
    by_cases hri : opts.removeInvalid = true
    · rw [if_pos hri]
      exact List.filter_sublist _
    · rw [if_neg hri]
  have hcore := processJobs_second_core opts (processJobs jobs opts).jobs
    (by
      intro j hj
      have hjC : j ∈ cleanJobs opts jobs :=
        (removeDuplicatesAux_sublist opts.dedupeBy [] (cleanJobs opts jobs)).subset
          (hLsub.subset hj)
      obtain ⟨j0, _, hj0⟩ := List.mem_map.mp hjC
      exact ⟨j0, hj0.symm⟩)
    (by
      intro j hj
      obtain ⟨k, hk, hne, _⟩ :=
        (removeDuplicatesAux_keys opts.dedupeBy [] (cleanJobs opts jobs)).1 j
          (hLsub.subset hj)
      exact ⟨k, hk, hne⟩)
    ((hLsub.map (dedupKey opts.dedupeBy)).nodup
      (removeDuplicatesAux_keys opts.dedupeBy [] (cleanJobs opts jobs)).2)
    (by
      intro hri j hj
      rw [hjobs, if_pos hri] at hj
      exact (List.mem_filter.mp hj).2)
  have hfinal : (processJobs jobs opts).stats.final
      = (processJobs jobs opts).jobs.length := rfl
  exact ⟨hcore.1, hcore.2.1, by rw [hfinal]; exact hcore.2.2⟩

end Radius
